import Mathlib

/-!
Verification of the claude-subagent-editor core: a shallow embedding of the
agent-file parser/serializer (`services/agent_parser.py` as given in the
repository's phase-1 plan) and of the frontend editor logic (`App.tsx`),
together with proofs about round-tripping, frontmatter splitting, field
normalization, the editor's assign/unassign operations, the base/MCP tool
partition and the MCP wildcard helpers.

Strings are modelled as Lean `String`/`List Char`; Python's `ruamel.yaml`
round-trip layer is modelled concretely (`yamlDump`/`yamlLoad`) in its default
block style for plain (quoting-free, single-line) scalars, which is the class
of values the round-trip theorems quantify over.
-/

/-- Python `str.strip` whitespace set (space, tab, newline, CR, VT, FF). -/
def wsChar (c : Char) : Bool :=
  c == ' ' || c == '\t' || c == '\n' || c == '\r' || c == Char.ofNat 11 || c == Char.ofNat 12

def dropLeadWS (l : List Char) : List Char := l.dropWhile wsChar

def dropTrailWS (l : List Char) : List Char := (l.reverse.dropWhile wsChar).reverse

/-- Python `str.strip()`. -/
def pyStrip (l : List Char) : List Char := dropTrailWS (dropLeadWS l)

def pyStripS (s : String) : String := ⟨pyStrip s.data⟩

/-- Python `str.startswith` / JS `String.prototype.startsWith` on char lists. -/
def beginsWith : List Char → List Char → Bool
  | [], _ => true
  | _ :: _, [] => false
  | p :: ps, c :: cs => p == c && beginsWith ps cs

/-- Python `str.find` (first index of a substring), `none` for -1. -/
def findSub (pat : List Char) : List Char → Option Nat
  | [] => if pat.isEmpty then some 0 else none
  | c :: rest =>
    if beginsWith pat (c :: rest) then some 0
    else (findSub pat rest).map (· + 1)

/-- Python `str.split(sep)` for a one-character separator. -/
def splitOnChar (sep : Char) : List Char → List (List Char)
  | [] => [[]]
  | c :: t =>
    if c == sep then [] :: splitOnChar sep t
    else
      match splitOnChar sep t with
      | [] => [[c]]
      | l :: ls => (c :: l) :: ls

def splitLines (l : List Char) : List (List Char) := splitOnChar '\n' l

/-- Join lines, a newline after every line (the shape of a `ruamel` dump). -/
def joinNL : List (List Char) → List Char
  | [] => []
  | l :: ls => l ++ '\n' :: joinNL ls

/-- Join lines with a newline between consecutive lines (no trailing one). -/
def interNL : List (List Char) → List Char
  | [] => []
  | l :: ls =>
    match ls with
    | [] => l
    | _ :: _ => l ++ '\n' :: interNL ls

/-- A YAML frontmatter value as the parser sees it: a string scalar, a
sequence of strings, null, or any other scalar represented by its Python
`str()` image. -/
inductive Yaml where
  | str (s : String)
  | list (xs : List String)
  | null
  | other (s : String)
  deriving DecidableEq

/-- Error taxonomy of the parser. `malformedStart`/`malformedEnd` are the two
`ValueError`s of `_split_frontmatter` (the spec's `MalformedFrontmatter`);
`missingField`/`invalidModel` are the semantic validation failures. -/
inductive ParseErr where
  | malformedStart
  | malformedEnd
  | invalidYaml
  | missingField (f : String)
  | invalidModel (m : String)
  deriving DecidableEq

def isMalformedFrontmatter : ParseErr → Bool
  | .malformedStart => true
  | .malformedEnd => true
  | _ => false

/-- Record `ParsedAgent` from `agent_parser.py` (the debug-only `raw_frontmatter`
copy of the YAML mapping is not modelled; no claim concerns it). -/
structure ParsedAgent where
  filename : String
  name : String
  description : String
  model : String
  tools : List String := []
  skills : List String := []
  nickname : Option String := none
  body : String := ""
  deriving DecidableEq

def DELIM : List Char := "---".data

/-- Model of `AgentParser._split_frontmatter`: strip, require a leading `---`, then cut
at the first occurrence of `"\n---"`; the body is everything after it, with a
redundant immediately-following `---` (or leading newlines) stripped. -/
def split_frontmatter (content : List Char) : Except ParseErr (List Char × List Char) :=
  let c := pyStrip content
  if beginsWith DELIM c then
    let rest := c.drop 3
    match findSub ('\n' :: DELIM) rest with
    | none => .error .malformedEnd
    | some i =>
      let fm := pyStrip (rest.take i)
      let body0 := pyStrip (rest.drop (i + 4))
      let body :=
        if beginsWith DELIM body0 then pyStrip (body0.drop 3)
        else if beginsWith ['\n'] body0 then body0.dropWhile (· == '\n')
        else body0
      .ok (fm, body)
  else .error .malformedStart

/-- One dumped mapping line of the form key colon space value. -/
def dumpScalarLine (k : String) (v : String) : List Char := k.data ++ ':' :: ' ' :: v.data

/-- Block-style dump, per `ruamel`, of one mapping entry (sequences as `- item`
lines at column 0, the default of `YAML()`). -/
def dumpEntry : String × Yaml → List (List Char)
  | (k, .str v) => [dumpScalarLine k v]
  | (k, .list xs) => (k.data ++ [':']) :: xs.map (fun x => '-' :: ' ' :: x.data)
  | (k, .null) => [k.data ++ [':']]
  | (k, .other v) => [dumpScalarLine k v]

def dumpLines (d : List (String × Yaml)) : List (List Char) := (d.map dumpEntry).flatten

/-- Model of `self._yaml.dump(frontmatter, stream)`: block style, trailing newline. -/
def yamlDump (d : List (String × Yaml)) : List Char := joinNL (dumpLines d)

/-- Collect the leading `- item` lines of a block sequence (the dash may be
indented, as in the repository's test files, or at column 0, as dumped). -/
def takeDashLines : List (List Char) → List String × List (List Char)
  | [] => ([], [])
  | l :: rest =>
    if beginsWith ['-', ' '] (l.dropWhile (· == ' ')) then
      let p := takeDashLines rest
      ((⟨(l.dropWhile (· == ' ')).drop 2⟩ : String) :: p.1, p.2)
    else ([], l :: rest)

theorem takeDashLines_len (ls : List (List Char)) : (takeDashLines ls).2.length ≤ ls.length := by
  induction ls with
  | nil => simp [takeDashLines]
  | cons l rest ih =>
    simp only [takeDashLines]
    by_cases h : beginsWith ['-', ' '] (l.dropWhile (· == ' ')) = true
    · simp [h]; omega
    · simp [h]

/-- Loader for the block-style mapping lines `yamlDump` emits: `key: scalar`
lines and `key:` lines followed by `- item` lines; models `ruamel`'s load on
that fragment. The fuel argument (always called with the number of lines)
only makes the recursion structural. -/
def yamlLoadLines : Nat → List (List Char) → Option (List (String × Yaml))
  | _, [] => some []
  | 0, _ :: _ => none
  | fuel + 1, line :: rest =>
    match findSub [':'] line with
    | none => none
    | some i =>
      let k : String := ⟨line.take i⟩
      let v := line.drop (i + 1)
      if v.isEmpty then
        (yamlLoadLines fuel (takeDashLines rest).2).map
          (fun d => (k, Yaml.list (takeDashLines rest).1) :: d)
      else if beginsWith [' '] v then
        (yamlLoadLines fuel rest).map (fun d => (k, Yaml.str ⟨pyStrip v⟩) :: d)
      else none

/-- Model of `AgentParser._parse_yaml` composed with the YAML library: an empty
document yields the empty mapping (`result if result else {}`). -/
def yamlLoad (l : List Char) : Option (List (String × Yaml)) :=
  if (pyStrip l).isEmpty then some []
  else yamlLoadLines (splitLines l).length (splitLines l)

/-- Single-quote character, used by the Python rendering of lists. -/
def sqC : String := ⟨[Char.ofNat 39]⟩

/-- Python `str(value)` on the modelled YAML values. -/
def pyStr : Yaml → String
  | .str s => s
  | .list xs => "[" ++ String.intercalate ", " (xs.map (fun x => sqC ++ x ++ sqC)) ++ "]"
  | .null => "None"
  | .other s => s

/-- Model of `AgentParser._get_required`: `data.get(key)` is `None` (absent or null)
raises `MissingField`, anything else is returned via `str()`. -/
def get_required (d : List (String × Yaml)) (key : String) : Except ParseErr String :=
  match d.lookup key with
  | none => .error (.missingField key)
  | some .null => .error (.missingField key)
  | some v => .ok (pyStr v)

/-- Model of `AgentParser._normalize_list`. -/
def normalize_list : Yaml → List String
  | .null => []
  | .list xs => xs.map pyStripS
  | .str s =>
    ((splitOnChar ',' s.data).map (fun seg => pyStripS ⟨seg⟩)).filter (fun t => !(t == ""))
  | .other s => [s]

/-- Model of `data.get(key, [])`: a missing key defaults to the empty list, which
normalizes identically to null. -/
def lookupD (d : List (String × Yaml)) (k : String) : Yaml := (d.lookup k).getD .null

/-- Model of `data.get("nickname")` stored into the `str | None` field (non-scalar
nicknames are outside the model). -/
def nicknameOf : Option Yaml → Option String
  | some (.str s) => some s
  | some (.other s) => some s
  | _ => none

/-- The field extraction of `AgentParser.parse_content` (the `ParsedAgent`
constructor call), after the YAML mapping is available. -/
def parse_fields (filename : String) (d : List (String × Yaml)) (body : List Char) :
    Except ParseErr ParsedAgent := do
  let name ← get_required d "name"
  let description ← get_required d "description"
  let model ← get_required d "model"
  .ok { filename := filename, name := name, description := description, model := model,
        tools := normalize_list (lookupD d "tools"),
        skills := normalize_list (lookupD d "skills"),
        nickname := nicknameOf (d.lookup "nickname"),
        body := pyStripS ⟨body⟩ }

/-- Model of `AgentParser.parse_content`. -/
def parse_content (content : List Char) (filename : String) : Except ParseErr ParsedAgent := do
  let p ← split_frontmatter content
  match yamlLoad p.1 with
  | none => .error .invalidYaml
  | some d => parse_fields filename d p.2

/-- The frontmatter dict built by `AgentParser.serialize`: `name`,
`description`, `model` unconditionally, then `tools`/`skills` if truthy
(non-empty) and `nickname` if truthy (present and non-empty). -/
def fmDict (a : ParsedAgent) : List (String × Yaml) :=
  [("name", Yaml.str a.name), ("description", Yaml.str a.description),
   ("model", Yaml.str a.model)]
  ++ (if a.tools.isEmpty then [] else [("tools", Yaml.list a.tools)])
  ++ (if a.skills.isEmpty then [] else [("skills", Yaml.list a.skills)])
  ++ (match a.nickname with
      | some n => if n = "" then [] else [("nickname", Yaml.str n)]
      | none => [])

/-- Model of `AgentParser.serialize`: `f"---\n{yaml_content}---\n\n{agent.body}\n"`. -/
def serialize (a : ParsedAgent) : List Char :=
  DELIM ++ '\n' :: (yamlDump (fmDict a) ++ (DELIM ++ '\n' :: '\n' :: (a.body.data ++ ['\n'])))

/-- The three `ModelType` enum literals of `schemas.py`. -/
def modelLiterals : List String := ["opus", "sonnet", "haiku"]

/-- Model of `ModelType(parsed.model)`: raises `ValueError` (the spec's `InvalidModel`)
unless the string is exactly one of the case-sensitive enum values. -/
def toModelType (s : String) : Except ParseErr String :=
  if s ∈ modelLiterals then .ok s else .error (.invalidModel s)

/-- Model of `routes._parse_agent_file` at the level of the parsed YAML mapping:
build the `ParsedAgent` fields, then validate `model` via `ModelType`. -/
def build_agent_config (filename : String) (d : List (String × Yaml)) (body : List Char) :
    Except ParseErr ParsedAgent :=
  match parse_fields filename d body with
  | .error e => .error e
  | .ok pa =>
    match toModelType pa.model with
    | .error e => .error e
    | .ok m => .ok { pa with model := m }

/-! Frontend (`App.tsx`) editor logic. -/

def DEFAULT_CLAUDE_TOOLS : List String :=
  ["Read", "Write", "Edit", "Bash", "Glob", "Grep", "Task", "WebFetch", "WebSearch",
   "NotebookEdit", "TodoWrite", "AskUserQuestion", "Skill"]

/-- Field `AgentConfig.tools` from `types/index.ts`: `string[] | '*'`. -/
inductive ToolsField where
  | list (l : List String)
  | star
  deriving DecidableEq

/-- Model of the filter selecting non-MCP tools; on the `'*'`
variant `.filter` does not exist (a TypeError), modelled as `none`. -/
def agentBaseToolsOf : ToolsField → Option (List String)
  | .star => none
  | .list l => some (l.filter (fun t => !(t.startsWith "mcp__")))

/-- Model of the filter selecting MCP tools, same crash note. -/
def agentMcpToolsOf : ToolsField → Option (List String)
  | .star => none
  | .list l => some (l.filter (fun t => t.startsWith "mcp__"))

/-- Model of the filter computing the unassigned base tools. -/
def availableBaseTools (tf : ToolsField) : Option (List String) :=
  (agentBaseToolsOf tf).map (fun bt => DEFAULT_CLAUDE_TOOLS.filter (fun n => !(bt.contains n)))

/-- The slice of the editor's `editedAgent` state the assign/unassign
operations can see (array case of `tools`). -/
structure EditorState where
  tools : List String
  disallowedTools : List String
  skills : List String
  deriving DecidableEq

/-- The editor's assign/unassign operations from `App.tsx`. -/
inductive EditOp where
  | addBaseTool (t : String)
  | removeBaseTool (t : String)
  | addMcpTool (t : String)
  | removeMcpTool (t : String)
  | addSkill (s : String)
  | removeSkill (s : String)
  deriving DecidableEq

/-- Operations `addBaseTool`/`removeBaseTool`/`addMcpTool`/`removeMcpTool`/`addSkill`/
`removeSkill` exactly as written: membership-guarded append, or filter. -/
def applyOp (op : EditOp) (s : EditorState) : EditorState :=
  match op with
  | .addBaseTool t => if s.tools.contains t then s else { s with tools := s.tools ++ [t] }
  | .removeBaseTool t => { s with tools := s.tools.filter (fun x => !(x == t)) }
  | .addMcpTool t => if s.tools.contains t then s else { s with tools := s.tools ++ [t] }
  | .removeMcpTool t => { s with tools := s.tools.filter (fun x => !(x == t)) }
  | .addSkill sk => if s.skills.contains sk then s else { s with skills := s.skills ++ [sk] }
  | .removeSkill sk => { s with skills := s.skills.filter (fun x => !(x == sk)) }

def runOps (ops : List EditOp) (s : EditorState) : EditorState :=
  ops.foldl (fun st op => applyOp op st) s

/-- ASCII model of the JS toLowerCase builtin, per character. -/
def jsToLower (c : Char) : Char := if c.isUpper then Char.ofNat (c.toNat + 32) else c

def dashToUnder (c : Char) : Char := if c = '-' then '_' else c

def underToDash (c : Char) : Char := if c = '_' then '-' else c

/-- Model of the JS regex dot: any char except a line terminator. -/
def dotOk (c : Char) : Bool :=
  !(c == '\n' || c == '\r' || c == Char.ofNat 0x2028 || c == Char.ofNat 0x2029)

/-- Template literal building the server wildcard: lowercase the server name,
map hyphens to underscores, wrap in the MCP markers. -/
def toMcpWildcard (serverName : String) : String :=
  "mcp__" ++ (⟨serverName.data.map (fun c => dashToUnder (jsToLower c))⟩ : String) ++ "__*"

def endsWithL (pat l : List Char) : Bool := beginsWith pat.reverse l.reverse

/-- Regex extraction of the server name from a wildcard, then mapping all
underscores back to hyphens:
the group is everything strictly between the literal `mcp__` and the final
`__*`, nonempty and free of line terminators. -/
def fromMcpWildcard (w : String) : Option String :=
  let d := w.data
  if beginsWith "mcp__".data d && endsWithL "__*".data d && decide (9 ≤ d.length)
      && ((d.drop 5).take (d.length - 8)).all dotOk then
    some ⟨((d.drop 5).take (d.length - 8)).map underToDash⟩
  else none

/-! Utility lemmas. -/

theorem beginsWith_iff (p l : List Char) : beginsWith p l = true ↔ ∃ t, l = p ++ t := by
  induction p generalizing l with
  | nil => simp [beginsWith]
  | cons c p2 ih =>
    cases l with
    | nil =>
      simp only [beginsWith, List.cons_append]
      constructor
      · intro h; cases h
      · rintro ⟨t, h⟩; cases h
    | cons d t =>
      simp only [beginsWith, Bool.and_eq_true, beq_iff_eq, ih]
      constructor
      · rintro ⟨rfl, u, rfl⟩; exact ⟨u, rfl⟩
      · rintro ⟨u, h⟩
        rw [List.cons_append] at h
        cases h
        exact ⟨rfl, u, rfl⟩

theorem beginsWith_append (p t : List Char) : beginsWith p (p ++ t) = true :=
  (beginsWith_iff p (p ++ t)).2 ⟨t, rfl⟩

theorem beginsWith_cons_false (c : Char) (p : List Char) (d : Char) (t : List Char)
    (hcd : (c == d) = false) : beginsWith (c :: p) (d :: t) = false := by
  simp [beginsWith, hcd]

theorem findSub_cons (pat : List Char) (c : Char) (rest : List Char) :
    findSub pat (c :: rest) =
      if beginsWith pat (c :: rest) then some 0 else (findSub pat rest).map (· + 1) := rfl

theorem findSub_append_shift (h : Char) (pt l rest : List Char) (hl : h ∉ l) :
    findSub (h :: pt) (l ++ rest) = (findSub (h :: pt) rest).map (· + l.length) := by
  induction l with
  | nil =>
    simp only [List.nil_append, List.length_nil]
    cases findSub (h :: pt) rest with
    | none => rfl
    | some v => rfl
  | cons c t ih =>
    have hc : (h == c) = false := by
      simp only [beq_eq_false_iff_ne]
      intro he
      exact hl (he ▸ List.mem_cons_self c t)
    have ht : h ∉ t := fun hm => hl (List.mem_cons_of_mem c hm)
    rw [List.cons_append, findSub_cons, beginsWith_cons_false h pt c (t ++ rest) hc]
    simp only [Bool.false_eq_true, if_false]
    rw [ih ht]
    cases findSub (h :: pt) rest with
    | none => rfl
    | some v => rfl

theorem findSub_isSome_iff (pat s : List Char) :
    (findSub pat s).isSome = true ↔ ∃ a b, s = a ++ pat ++ b := by
  induction s with
  | nil =>
    show (if pat.isEmpty then some 0 else none).isSome = true ↔ _
    cases pat with
    | nil => simp
    | cons c p2 =>
      simp only [List.isEmpty_cons, Bool.false_eq_true, if_false, Option.isSome_none]
      constructor
      · intro h; cases h
      · rintro ⟨a, b, h⟩
        have := congrArg List.length h
        simp only [List.length_nil, List.length_append, List.length_cons] at this
        omega
  | cons c rest ih =>
    rw [findSub_cons]
    by_cases hb : beginsWith pat (c :: rest) = true
    · rw [if_pos hb]
      simp only [Option.isSome_some, true_iff]
      obtain ⟨t, ht⟩ := (beginsWith_iff pat (c :: rest)).1 hb
      exact ⟨[], t, by simpa using ht⟩
    · rw [if_neg hb]
      have hmap : ((findSub pat rest).map (· + 1)).isSome = (findSub pat rest).isSome := by
        cases findSub pat rest <;> rfl
      rw [hmap, ih]
      constructor
      · rintro ⟨a, b, rfl⟩
        exact ⟨c :: a, b, by simp⟩
      · rintro ⟨a, b, hab⟩
        cases a with
        | nil =>
          exact absurd ((beginsWith_iff pat (c :: rest)).2 ⟨b, by simpa using hab⟩) hb
        | cons a0 a2 =>
          rw [List.cons_append, List.cons_append] at hab
          cases hab
          exact ⟨a2, b, rfl⟩

theorem splitOnChar_of_not_mem (sep : Char) (l : List Char) (h : sep ∉ l) :
    splitOnChar sep l = [l] := by
  induction l with
  | nil => rfl
  | cons c t ih =>
    have hc : (c == sep) = false := by
      simp only [beq_eq_false_iff_ne]
      intro he
      exact h (he ▸ List.mem_cons_self c t)
    have ht : sep ∉ t := fun hm => h (List.mem_cons_of_mem c hm)
    simp only [splitOnChar, hc, Bool.false_eq_true, if_false, ih ht]

theorem splitOnChar_append (sep : Char) (l rest : List Char) (h : sep ∉ l) :
    splitOnChar sep (l ++ sep :: rest) = l :: splitOnChar sep rest := by
  induction l with
  | nil =>
    simp [splitOnChar]
  | cons c t ih =>
    have hc : (c == sep) = false := by
      simp only [beq_eq_false_iff_ne]
      intro he
      exact h (he ▸ List.mem_cons_self c t)
    have ht : sep ∉ t := fun hm => h (List.mem_cons_of_mem c hm)
    rw [List.cons_append]
    simp only [splitOnChar, hc, Bool.false_eq_true, if_false, ih ht]

theorem splitLines_interNL (L : List (List Char)) (hne : L ≠ [])
    (h : ∀ l ∈ L, ('\n' : Char) ∉ l) : splitLines (interNL L) = L := by
  induction L with
  | nil => exact absurd rfl hne
  | cons l ls ih =>
    cases ls with
    | nil =>
      show splitLines (interNL [l]) = [l]
      simp only [interNL, splitLines]
      exact splitOnChar_of_not_mem '\n' l (h l (List.mem_cons_self l []))
    | cons l2 ls2 =>
      show splitLines (l ++ '\n' :: interNL (l2 :: ls2)) = l :: l2 :: ls2
      rw [splitLines, splitOnChar_append '\n' l (interNL (l2 :: ls2))
        (h l (List.mem_cons_self l (l2 :: ls2)))]
      have := ih (by simp) (fun x hx => h x (List.mem_cons_of_mem l hx))
      rw [splitLines] at this
      rw [this]

theorem joinNL_eq_interNL (L : List (List Char)) (hne : L ≠ []) :
    joinNL L = interNL L ++ ['\n'] := by
  induction L with
  | nil => exact absurd rfl hne
  | cons l ls ih =>
    cases ls with
    | nil => rfl
    | cons l2 ls2 =>
      show l ++ '\n' :: joinNL (l2 :: ls2) = (l ++ '\n' :: interNL (l2 :: ls2)) ++ ['\n']
      rw [ih (by simp)]
      simp

/-! Lemmas about stripping. -/

theorem dropWhile_append_of_all (p : Char → Bool) (a b : List Char)
    (h : ∀ c ∈ a, p c = true) : (a ++ b).dropWhile p = b.dropWhile p := by
  induction a with
  | nil => rfl
  | cons c t ih =>
    rw [List.cons_append, List.dropWhile_cons, if_pos (h c (List.mem_cons_self c t))]
    exact ih (fun x hx => h x (List.mem_cons_of_mem c hx))

theorem dropWhile_cons_of_neg (p : Char → Bool) (c : Char) (t : List Char)
    (h : p c = false) : (c :: t).dropWhile p = c :: t := by
  rw [List.dropWhile_cons, if_neg (by simp [h])]

theorem dropTrailWS_append_ws (a b : List Char) (h : ∀ c ∈ b, wsChar c = true) :
    dropTrailWS (a ++ b) = dropTrailWS a := by
  unfold dropTrailWS
  rw [List.reverse_append, dropWhile_append_of_all wsChar b.reverse a.reverse
    (fun c hc => h c (List.mem_reverse.1 hc))]

theorem dropTrailWS_snoc_not (a : List Char) (c : Char) (h : wsChar c = false) :
    dropTrailWS (a ++ [c]) = a ++ [c] := by
  unfold dropTrailWS
  rw [List.reverse_append, List.reverse_cons, List.reverse_nil, List.nil_append,
    List.singleton_append, dropWhile_cons_of_neg wsChar c a.reverse h]
  rw [show c :: a.reverse = (a ++ [c]).reverse by simp]
  rw [List.reverse_reverse]

theorem dropTrailWS_last_not (a : List Char) (c : Char) (h : a.getLast? = some c)
    (hc : wsChar c = false) : dropTrailWS a = a := by
  obtain ⟨b, rfl⟩ : ∃ b, a = b ++ [c] := by
    rcases List.eq_nil_or_concat a with rfl | ⟨b, d, rfl⟩
    · cases h
    · rw [List.concat_eq_append, List.getLast?_concat] at h
      cases h
      exact ⟨b, by simp⟩
  exact dropTrailWS_snoc_not b c hc

/-- A list whose first and last characters (when present) are not whitespace. -/
def noEdgeWS (l : List Char) : Bool :=
  (match l.head? with | none => true | some c => !wsChar c) &&
  (match l.getLast? with | none => true | some c => !wsChar c)

theorem pyStrip_noop (l : List Char) (h : noEdgeWS l = true) : pyStrip l = l := by
  cases l with
  | nil => rfl
  | cons c t =>
    unfold noEdgeWS at h
    simp only [List.head?_cons, Bool.and_eq_true, Bool.not_eq_eq_eq_not, Bool.not_true] at h
    obtain ⟨h1, h2⟩ := h
    unfold pyStrip dropLeadWS
    rw [dropWhile_cons_of_neg wsChar c t h1]
    have hl : (c :: t).getLast? = some ((c :: t).getLast (by simp)) := List.getLast?_eq_getLast _ _
    rw [hl] at h2
    exact dropTrailWS_last_not (c :: t) _ hl (by simpa using h2)

theorem pyStrip_nil : pyStrip [] = [] := rfl

theorem dropLeadWS_ws_cons (c : Char) (t : List Char) (h : wsChar c = true) :
    dropLeadWS (c :: t) = dropLeadWS t := by
  unfold dropLeadWS
  rw [List.dropWhile_cons, if_pos h]

theorem pyStrip_ws_cons (c : Char) (t : List Char) (h : wsChar c = true) :
    pyStrip (c :: t) = pyStrip t := by
  unfold pyStrip
  rw [dropLeadWS_ws_cons c t h]

/-! Well-formedness of records: the class of plain, quoting-free YAML scalars
over which the serializer/parser round-trip is stated. -/

def plainChar (c : Char) : Bool :=
  c.isAlphanum || c == ' ' || c == '-' || c == '_' || c == '.' || c == ',' || c == '/'

/-- Scalars that YAML 1.2 (and common 1.1 schemas) would resolve to booleans
or nulls rather than strings; excluded from the plain class. -/
def reservedScalars : List String :=
  ["true", "True", "TRUE", "false", "False", "FALSE", "null", "Null", "NULL",
   "yes", "Yes", "YES", "no", "No", "NO", "on", "On", "ON", "off", "Off", "OFF"]

/-- A plain scalar: nonempty, letter-initial, from a safe character set, not
ending in a space, not a reserved word, short enough that `ruamel` does not
fold the line. -/
def plainOkB (s : String) : Bool :=
  (match s.data.head? with
   | none => false
   | some c => c.isAlpha && !wsChar c && !(c == '-')) &&
  s.data.all (fun c => plainChar c && !(c == '\n') && !(c == ':')) &&
  (match s.data.getLast? with
   | none => false
   | some d => !wsChar d) &&
  !(reservedScalars.contains s) &&
  decide (s.data.length ≤ 60)

def keyOkB (k : String) : Bool :=
  (match k.data.head? with
   | none => false
   | some c => !wsChar c && !(c == '-')) &&
  k.data.all (fun c => !(c == ':') && !(c == '\n'))

def valOkB : Yaml → Bool
  | .str v => plainOkB v
  | .list xs => xs.all plainOkB
  | .null => false
  | .other _ => false

def dictOkB (d : List (String × Yaml)) : Bool := d.all (fun e => keyOkB e.1 && valOkB e.2)

/-- Validity of a record for the round-trip: all scalar fields plain, the
nickname (when present) plain, and the body trimmed and not starting with
the delimiter `---`. -/
def wellFormedB (a : ParsedAgent) : Bool :=
  plainOkB a.name && plainOkB a.description && plainOkB a.model &&
  a.tools.all plainOkB && a.skills.all plainOkB &&
  (match a.nickname with
   | none => true
   | some n => plainOkB n) &&
  noEdgeWS a.body.data && !(beginsWith DELIM a.body.data)

theorem plainOk_ne_nil (s : String) (h : plainOkB s = true) : s.data ≠ [] := by
  intro he
  unfold plainOkB at h
  rw [he] at h
  simp at h

theorem plainOk_parts (s : String) (h : plainOkB s = true) :
    (∀ c, s.data.head? = some c → (c.isAlpha && !wsChar c && !(c == '-')) = true) ∧
    (∀ c ∈ s.data, (plainChar c && !(c == '\n') && !(c == ':')) = true) ∧
    (∀ d, s.data.getLast? = some d → wsChar d = false) := by
  unfold plainOkB at h
  simp only [Bool.and_eq_true, List.all_eq_true, decide_eq_true_eq] at h
  obtain ⟨⟨⟨⟨h1, h2⟩, h3⟩, _⟩, _⟩ := h
  refine ⟨?_, ?_, ?_⟩
  · intro c hc
    rw [hc] at h1
    simpa using h1
  · intro c hc
    simpa using h2 c hc
  · intro d hd
    rw [hd] at h3
    simpa using h3

theorem plainOk_no_newline (s : String) (h : plainOkB s = true) : ('\n' : Char) ∉ s.data := by
  intro hm
  have := (plainOk_parts s h).2.1 '\n' hm
  simp at this

theorem plainOk_no_colon (s : String) (h : plainOkB s = true) : (':' : Char) ∉ s.data := by
  intro hm
  have := (plainOk_parts s h).2.1 ':' hm
  simp at this

theorem plainOk_noEdge (s : String) (h : plainOkB s = true) : noEdgeWS s.data = true := by
  obtain ⟨h1, _, h3⟩ := plainOk_parts s h
  unfold noEdgeWS
  cases hh : s.data.head? with
  | none => exact absurd (List.head?_eq_none_iff.1 hh) (plainOk_ne_nil s h)
  | some c =>
    cases hl : s.data.getLast? with
    | none =>
      exact absurd (List.getLast?_eq_none_iff.1 hl) (plainOk_ne_nil s h)
    | some d =>
      have hc := h1 c hh
      have hd := h3 d hl
      simp only [Bool.and_eq_true] at hc
      simp [hc.1.2, hd]

theorem plainOk_strip (s : String) (h : plainOkB s = true) : pyStripS s = s := by
  unfold pyStripS
  rw [pyStrip_noop s.data (plainOk_noEdge s h)]

theorem plainOk_stripL (s : String) (h : plainOkB s = true) : pyStrip s.data = s.data :=
  pyStrip_noop s.data (plainOk_noEdge s h)

/-! Facts about the dumped frontmatter lines. -/

/-- Conditions on one dumped line: single-line, can never start a `---`
delimiter (whatever follows it), nonempty, ends in non-whitespace. -/
def LineFacts (l : List Char) : Prop :=
  (('\n' : Char) ∉ l) ∧ (∀ junk, beginsWith DELIM (l ++ junk) = false) ∧ l ≠ [] ∧
  (∀ c, l.getLast? = some c → wsChar c = false) ∧
  (∀ c, l.head? = some c → wsChar c = false)

theorem beginsWith_DELIM_head (c : Char) (t junk : List Char)
    (hc : (('-' : Char) == c) = false) : beginsWith DELIM ((c :: t) ++ junk) = false := by
  show beginsWith ('-' :: '-' :: '-' :: []) (c :: (t ++ junk)) = false
  simp [beginsWith, hc]

theorem beginsWith_DELIM_second (c d : Char) (t junk : List Char)
    (hd : (('-' : Char) == d) = false) :
    beginsWith DELIM ((c :: d :: t) ++ junk) = false := by
  show beginsWith ('-' :: '-' :: '-' :: []) (c :: d :: (t ++ junk)) = false
  simp [beginsWith, hd]

theorem keyOk_parts (k : String) (h : keyOkB k = true) :
    (∀ c, k.data.head? = some c → wsChar c = false ∧ (c == '-') = false) ∧
    (∀ c ∈ k.data, (c == ':') = false ∧ (c == '\n') = false) ∧ k.data ≠ [] := by
  unfold keyOkB at h
  simp only [Bool.and_eq_true, List.all_eq_true] at h
  obtain ⟨h1, h2⟩ := h
  refine ⟨?_, ?_, ?_⟩
  · intro c hc
    rw [hc] at h1
    simp only [Bool.and_eq_true, Bool.not_eq_eq_eq_not, Bool.not_true] at h1
    exact ⟨h1.1, by simpa using h1.2⟩
  · intro c hc
    have := h2 c hc
    simp only [Bool.and_eq_true, Bool.not_eq_eq_eq_not, Bool.not_true] at this
    exact this
  · intro he
    rw [he] at h1
    simp at h1

theorem scalarLine_facts (k v : String) (hk : keyOkB k = true) (hv : plainOkB v = true) :
    LineFacts (dumpScalarLine k v) := by
  obtain ⟨hk1, hk2, hk3⟩ := keyOk_parts k hk
  obtain ⟨hv1, hv2, hv3⟩ := plainOk_parts v hv
  unfold dumpScalarLine
  refine ⟨?_, ?_, ?_, ?_, ?_⟩
  · intro hm
    rcases List.mem_append.1 hm with hm | hm
    · have := (hk2 '\n' hm).2
      simp at this
    · simp only [List.mem_cons] at hm
      rcases hm with h1 | h1 | hm
      · exact absurd h1 (by decide)
      · exact absurd h1 (by decide)
      · have := hv2 '\n' hm
        simp at this
  · intro junk
    obtain ⟨c, kt, hck⟩ : ∃ c kt, k.data = c :: kt := by
      cases hc : k.data with
      | nil => exact absurd hc hk3
      | cons c kt => exact ⟨c, kt, rfl⟩
    have hcd : (('-' : Char) == c) = false := by
      have := (hk1 c (by rw [hck]; rfl)).2
      cases hb : (('-' : Char) == c)
      · rfl
      · rw [beq_iff_eq] at hb
        rw [← hb] at this
        simp at this
    rw [hck, List.cons_append, List.cons_append]
    exact beginsWith_DELIM_head c (kt ++ ':' :: ' ' :: v.data) junk hcd
  · intro he
    have := congrArg List.length he
    simp at this
  · intro c hc
    rw [List.getLast?_append_of_ne_nil _ (by simp)] at hc
    have hvne : v.data ≠ [] := plainOk_ne_nil v hv
    rw [show (':' :: ' ' :: v.data) = [':', ' '] ++ v.data by rfl,
      List.getLast?_append_of_ne_nil _ hvne] at hc
    exact hv3 c hc
  · intro c hc
    obtain ⟨c0, kt, hck⟩ : ∃ c0 kt, k.data = c0 :: kt := by
      cases hcc : k.data with
      | nil => exact absurd hcc hk3
      | cons c0 kt => exact ⟨c0, kt, rfl⟩
    rw [hck] at hc
    rw [List.cons_append] at hc
    rw [List.head?_cons] at hc
    cases hc
    exact (hk1 c (by rw [hck]; rfl)).1

theorem keyLine_facts (k : String) (hk : keyOkB k = true) : LineFacts (k.data ++ [':']) := by
  obtain ⟨hk1, hk2, hk3⟩ := keyOk_parts k hk
  refine ⟨?_, ?_, ?_, ?_, ?_⟩
  · intro hm
    rcases List.mem_append.1 hm with hm | hm
    · have := (hk2 '\n' hm).2
      simp at this
    · exact absurd (List.mem_singleton.1 hm) (by decide)
  · intro junk
    obtain ⟨c, kt, hck⟩ : ∃ c kt, k.data = c :: kt := by
      cases hc : k.data with
      | nil => exact absurd hc hk3
      | cons c kt => exact ⟨c, kt, rfl⟩
    have hcd : (('-' : Char) == c) = false := by
      have := (hk1 c (by rw [hck]; rfl)).2
      cases hb : (('-' : Char) == c)
      · rfl
      · rw [beq_iff_eq] at hb
        rw [← hb] at this
        simp at this
    rw [hck, List.cons_append, List.cons_append]
    exact beginsWith_DELIM_head c (kt ++ [':']) junk hcd
  · intro he
    have := congrArg List.length he
    simp at this
  · intro c hc
    rw [List.getLast?_append_of_ne_nil _ (by simp)] at hc
    simp only [List.getLast?_singleton, Option.some.injEq] at hc
    rw [← hc]
    rfl
  · intro c hc
    obtain ⟨c0, kt, hck⟩ : ∃ c0 kt, k.data = c0 :: kt := by
      cases hcc : k.data with
      | nil => exact absurd hcc hk3
      | cons c0 kt => exact ⟨c0, kt, rfl⟩
    rw [hck, List.cons_append, List.head?_cons] at hc
    cases hc
    exact (hk1 c (by rw [hck]; rfl)).1

theorem dashLine_facts (x : String) (hx : plainOkB x = true) :
    LineFacts ('-' :: ' ' :: x.data) := by
  obtain ⟨hx1, hx2, hx3⟩ := plainOk_parts x hx
  refine ⟨?_, ?_, ?_, ?_, ?_⟩
  · intro hm
    simp only [List.mem_cons] at hm
    rcases hm with h1 | h1 | hm
    · exact absurd h1 (by decide)
    · exact absurd h1 (by decide)
    · have := hx2 '\n' hm
      simp at this
  · intro junk
    exact beginsWith_DELIM_second '-' ' ' x.data junk rfl
  · simp
  · intro c hc
    have hxne : x.data ≠ [] := plainOk_ne_nil x hx
    rw [show ('-' :: ' ' :: x.data) = ['-', ' '] ++ x.data by rfl,
      List.getLast?_append_of_ne_nil _ hxne] at hc
    exact hx3 c hc
  · intro c hc
    rw [List.head?_cons] at hc
    cases hc
    rfl

theorem dumpEntry_facts (e : String × Yaml) (h : (keyOkB e.1 && valOkB e.2) = true) :
    ∀ l ∈ dumpEntry e, LineFacts l := by
  obtain ⟨k, v⟩ := e
  simp only [Bool.and_eq_true] at h
  obtain ⟨hk, hv⟩ := h
  cases v with
  | str v =>
    intro l hl
    rw [show dumpEntry (k, Yaml.str v) = [dumpScalarLine k v] from rfl,
      List.mem_singleton] at hl
    rw [hl]
    exact scalarLine_facts k v hk hv
  | list xs =>
    intro l hl
    rw [show dumpEntry (k, Yaml.list xs)
        = (k.data ++ [':']) :: xs.map (fun x => '-' :: ' ' :: x.data) from rfl,
      List.mem_cons] at hl
    rcases hl with rfl | hl
    · exact keyLine_facts k hk
    · rw [List.mem_map] at hl
      obtain ⟨x, hx, rfl⟩ := hl
      simp only [valOkB, List.all_eq_true] at hv
      exact dashLine_facts x (hv x hx)
  | null => simp [valOkB] at hv
  | other v => simp [valOkB] at hv

theorem dumpLines_facts (d : List (String × Yaml)) (h : dictOkB d = true) :
    ∀ l ∈ dumpLines d, LineFacts l := by
  intro l hl
  unfold dumpLines at hl
  rw [List.mem_flatten] at hl
  obtain ⟨ll, hll, hlmem⟩ := hl
  rw [List.mem_map] at hll
  obtain ⟨e, he, rfl⟩ := hll
  unfold dictOkB at h
  rw [List.all_eq_true] at h
  exact dumpEntry_facts e (h e he) l hlmem

/-! Locating the closing delimiter in serialized output. -/

theorem findSub_close (L : List (List Char)) (tail : List Char)
    (h : ∀ l ∈ L, LineFacts l) :
    findSub ('\n' :: DELIM) ('\n' :: (joinNL L ++ (DELIM ++ tail))) =
      some (joinNL L).length := by
  induction L with
  | nil =>
    show findSub ('\n' :: DELIM) ('\n' :: ([] ++ (DELIM ++ tail))) = some 0
    rw [List.nil_append, findSub_cons,
      if_pos (by exact beginsWith_append ('\n' :: DELIM) tail)]
  | cons l ls ih =>
    have hl := h l (List.mem_cons_self l ls)
    have hfact : beginsWith DELIM (l ++ ('\n' :: (joinNL ls ++ (DELIM ++ tail)))) = false :=
      hl.2.1 _
    have harr : joinNL (l :: ls) ++ (DELIM ++ tail)
        = l ++ ('\n' :: (joinNL ls ++ (DELIM ++ tail))) := by
      show (l ++ '\n' :: joinNL ls) ++ (DELIM ++ tail) = _
      simp [List.append_assoc]
    rw [harr, findSub_cons]
    rw [if_neg (by simp [beginsWith, hfact])]
    rw [findSub_append_shift '\n' DELIM l ('\n' :: (joinNL ls ++ (DELIM ++ tail))) hl.1]
    rw [ih (fun x hx => h x (List.mem_cons_of_mem l hx))]
    show some ((joinNL ls).length + l.length + 1) = some (joinNL (l :: ls)).length
    have : (joinNL (l :: ls)).length = l.length + 1 + (joinNL ls).length := by
      show (l ++ '\n' :: joinNL ls).length = _
      simp [List.length_append]
      omega
    rw [this]
    congr 1
    omega

theorem interNL_head (l : List Char) (ls : List (List Char)) (hne : l ≠ []) :
    (interNL (l :: ls)).head? = l.head? := by
  cases ls with
  | nil => rfl
  | cons l2 ls2 =>
    show (l ++ '\n' :: interNL (l2 :: ls2)).head? = l.head?
    cases l with
    | nil => exact absurd rfl hne
    | cons c t => rfl

theorem interNL_ne_nil (l : List Char) (ls : List (List Char)) (hne : l ≠ []) :
    interNL (l :: ls) ≠ [] := by
  cases ls with
  | nil => exact hne
  | cons l2 ls2 =>
    show l ++ '\n' :: interNL (l2 :: ls2) ≠ []
    simp

theorem interNL_last (L : List (List Char)) (hne : L ≠ []) (h : ∀ l ∈ L, l ≠ []) :
    ∃ l0, l0 ∈ L ∧ (interNL L).getLast? = l0.getLast? := by
  induction L with
  | nil => exact absurd rfl hne
  | cons l ls ih =>
    cases ls with
    | nil => exact ⟨l, List.mem_cons_self l [], rfl⟩
    | cons l2 ls2 =>
      obtain ⟨l0, hl0, he⟩ := ih (by simp) (fun x hx => h x (List.mem_cons_of_mem l hx))
      refine ⟨l0, List.mem_cons_of_mem l hl0, ?_⟩
      show (l ++ '\n' :: interNL (l2 :: ls2)).getLast? = l0.getLast?
      rw [List.getLast?_append_of_ne_nil _ (by simp)]
      rw [show ('\n' :: interNL (l2 :: ls2)) = ['\n'] ++ interNL (l2 :: ls2) from rfl,
        List.getLast?_append_of_ne_nil _
          (interNL_ne_nil l2 ls2 (h l2 (List.mem_cons_of_mem l (List.mem_cons_self l2 ls2))))]
      exact he

theorem interNL_noEdge (L : List (List Char)) (hne : L ≠ [])
    (h : ∀ l ∈ L, LineFacts l) : noEdgeWS (interNL L) = true := by
  obtain ⟨l, ls, rfl⟩ : ∃ l ls, L = l :: ls := by
    cases L with
    | nil => exact absurd rfl hne
    | cons l ls => exact ⟨l, ls, rfl⟩
  have hlne : ∀ x ∈ l :: ls, x ≠ [] := fun x hx => (h x hx).2.2.1
  unfold noEdgeWS
  rw [interNL_head l ls (hlne l (List.mem_cons_self l ls))]
  obtain ⟨l0, hl0, he⟩ := interNL_last (l :: ls) (by simp) hlne
  rw [he]
  have hbody : ∀ x ∈ l :: ls, ∀ c, x.getLast? = some c → wsChar c = false :=
    fun x hx => (h x hx).2.2.2.1
  cases hh : l.head? with
  | none => exact absurd (List.head?_eq_none_iff.1 hh) (hlne l (List.mem_cons_self l ls))
  | some c =>
    cases hl2 : l0.getLast? with
    | none => exact absurd (List.getLast?_eq_none_iff.1 hl2) (hlne l0 hl0)
    | some d =>
      have hd := hbody l0 hl0 d hl2
      have hc : wsChar c = false := (h l (List.mem_cons_self l ls)).2.2.2.2 c hh
      simp [hc, hd]

/-! Loading back what was dumped. -/

theorem mkData (s : String) : (⟨s.data⟩ : String) = s := by
  cases s
  rfl

theorem findSub_colon (k : String) (rest : List Char) (hk : (':' : Char) ∉ k.data) :
    findSub [':'] (k.data ++ ':' :: rest) = some k.data.length := by
  rw [findSub_append_shift ':' [] k.data (':' :: rest) hk]
  rw [show findSub [':'] (':' :: rest) = some 0 by
    rw [findSub_cons, if_pos (by simp [beginsWith])]]
  simp

/-- The next line (if any) does not look like a sequence item. -/
def HeadNotDash (rest : List (List Char)) : Prop :=
  ∀ l, rest.head? = some l → beginsWith ['-', ' '] (l.dropWhile (· == ' ')) = false

theorem takeDash_spec (xs : List String) (rest2 : List (List Char))
    (hx : ∀ x ∈ xs, True) (hrest : HeadNotDash rest2) :
    takeDashLines (xs.map (fun x => '-' :: ' ' :: x.data) ++ rest2) = (xs, rest2) := by
  induction xs with
  | nil =>
    cases h2 : rest2 with
    | nil => rfl
    | cons l r2 =>
      show takeDashLines (l :: r2) = ([], l :: r2)
      unfold takeDashLines
      rw [if_neg (by rw [hrest l (by rw [h2]; rfl)]; simp)]
  | cons x xs2 ih =>
    rw [List.map_cons, List.cons_append]
    show takeDashLines (('-' :: ' ' :: x.data) :: (xs2.map (fun x => '-' :: ' ' :: x.data) ++ rest2))
      = (x :: xs2, rest2)
    unfold takeDashLines
    rw [dropWhile_cons_of_neg (· == ' ') '-' (' ' :: x.data) (by decide)]
    rw [if_pos (by simp [beginsWith])]
    rw [ih (fun y hy => trivial)]
    simp [mkData]

theorem dumpLines_headNotDash (d : List (String × Yaml)) (h : dictOkB d = true) :
    HeadNotDash (dumpLines d) := by
  intro l hl
  cases d with
  | nil => cases hl
  | cons e d2 =>
    obtain ⟨k, v⟩ := e
    unfold dictOkB at h
    rw [List.all_eq_true] at h
    have hkv := h (k, v) (List.mem_cons_self _ _)
    simp only [Bool.and_eq_true] at hkv
    obtain ⟨hk, hv⟩ := hkv
    obtain ⟨hk1, hk2, hk3⟩ := keyOk_parts k hk
    obtain ⟨c, kt, hck⟩ : ∃ c kt, k.data = c :: kt := by
      cases hc : k.data with
      | nil => exact absurd hc hk3
      | cons c kt => exact ⟨c, kt, rfl⟩
    have hcbad := hk1 c (by rw [hck]; rfl)
    have hkl : ∃ t, l = c :: t := by
      cases v with
      | str v =>
        rw [show dumpLines ((k, Yaml.str v) :: d2)
            = dumpScalarLine k v :: dumpLines d2 from rfl] at hl
        rw [List.head?_cons] at hl
        cases hl
        exact ⟨kt ++ ':' :: ' ' :: v.data, by rw [dumpScalarLine, hck]; rfl⟩
      | list xs =>
        rw [show dumpLines ((k, Yaml.list xs) :: d2)
            = (k.data ++ [':']) :: (xs.map (fun x => '-' :: ' ' :: x.data) ++ dumpLines d2)
          from by simp [dumpLines, dumpEntry]] at hl
        rw [List.head?_cons] at hl
        cases hl
        exact ⟨kt ++ [':'], by rw [hck]; rfl⟩
      | null => simp [valOkB] at hv
      | other v => simp [valOkB] at hv
    obtain ⟨t, rfl⟩ := hkl
    have hcsp : (c == ' ') = false := by
      cases hb : (c == ' ')
      · rfl
      · rw [beq_iff_eq] at hb
        rw [hb] at hcbad
        simp [wsChar] at hcbad
    rw [dropWhile_cons_of_neg (· == ' ') c t hcsp]
    have hcd : (('-' : Char) == c) = false := by
      cases hb : (('-' : Char) == c)
      · rfl
      · rw [beq_iff_eq] at hb
        rw [← hb] at hcbad
        simp at hcbad
    simp [beginsWith, hcd]

theorem dumpLines_len_cons_str (k v : String) (d2 : List (String × Yaml)) :
    (dumpLines ((k, Yaml.str v) :: d2)).length = (dumpLines d2).length + 1 := by
  show (dumpScalarLine k v :: dumpLines d2).length = _
  simp

theorem dumpLines_len_cons_list (k : String) (xs : List String)
    (d2 : List (String × Yaml)) :
    (dumpLines ((k, Yaml.list xs) :: d2)).length
      = (dumpLines d2).length + xs.length + 1 := by
  show ((k.data ++ [':']) :: (xs.map (fun x => '-' :: ' ' :: x.data) ++ dumpLines d2)).length = _
  simp
  omega

theorem loadDump (d : List (String × Yaml)) (h : dictOkB d = true) (fuel : Nat)
    (hf : (dumpLines d).length ≤ fuel) :
    yamlLoadLines fuel (dumpLines d) = some d := by
  induction d generalizing fuel with
  | nil =>
    show yamlLoadLines fuel [] = some []
    cases fuel <;> rfl
  | cons e d2 ih =>
    obtain ⟨k, v⟩ := e
    have hall := h
    unfold dictOkB at hall
    rw [List.all_eq_true] at hall
    have hkv := hall (k, v) (List.mem_cons_self _ _)
    simp only [Bool.and_eq_true] at hkv
    obtain ⟨hk, hv⟩ := hkv
    have hd2 : dictOkB d2 = true := by
      unfold dictOkB
      rw [List.all_eq_true]
      exact fun e2 he2 => hall e2 (List.mem_cons_of_mem _ he2)
    have hkcolon : (':' : Char) ∉ k.data := by
      intro hm
      have := ((keyOk_parts k hk).2.1 ':' hm).1
      simp at this
    cases v with
    | str v =>
      obtain ⟨f, rfl⟩ : ∃ f, fuel = f + 1 := by
        cases fuel with
        | zero =>
          rw [dumpLines_len_cons_str] at hf
          omega
        | succ f => exact ⟨f, rfl⟩
      have hfle : (dumpLines d2).length ≤ f := by
        rw [dumpLines_len_cons_str] at hf
        omega
      rw [show dumpLines ((k, Yaml.str v) :: d2)
          = dumpScalarLine k v :: dumpLines d2 from rfl]
      rw [show yamlLoadLines (f + 1) (dumpScalarLine k v :: dumpLines d2)
          = match findSub [':'] (dumpScalarLine k v) with
            | none => none
            | some i =>
              let kk : String := ⟨(dumpScalarLine k v).take i⟩
              let vv := (dumpScalarLine k v).drop (i + 1)
              if vv.isEmpty then
                (yamlLoadLines f (takeDashLines (dumpLines d2)).2).map
                  (fun dd => (kk, Yaml.list (takeDashLines (dumpLines d2)).1) :: dd)
              else if beginsWith [' '] vv then
                (yamlLoadLines f (dumpLines d2)).map
                  (fun dd => (kk, Yaml.str ⟨pyStrip vv⟩) :: dd)
              else none
        from rfl]
      rw [show dumpScalarLine k v = k.data ++ ':' :: (' ' :: v.data) from rfl]
      rw [findSub_colon k (' ' :: v.data) hkcolon]
      simp only
      rw [List.take_left]
      have hdrop : (k.data ++ ':' :: ' ' :: v.data).drop (k.data.length + 1) = ' ' :: v.data := by
        rw [show k.data ++ ':' :: ' ' :: v.data = (k.data ++ [':']) ++ (' ' :: v.data) by simp]
        rw [show k.data.length + 1 = (k.data ++ [':']).length by simp]
        exact List.drop_left _ _
      rw [hdrop]
      rw [if_neg (by simp)]
      rw [if_pos (by simp [beginsWith])]
      rw [ih hd2 f hfle]
      rw [pyStrip_ws_cons ' ' v.data rfl]
      rw [plainOk_stripL v hv]
      rw [mkData, mkData]
      rfl
    | list xs =>
      obtain ⟨f, rfl⟩ : ∃ f, fuel = f + 1 := by
        cases fuel with
        | zero =>
          rw [dumpLines_len_cons_list] at hf
          omega
        | succ f => exact ⟨f, rfl⟩
      have hfle : (dumpLines d2).length ≤ f := by
        rw [dumpLines_len_cons_list] at hf
        omega
      rw [show dumpLines ((k, Yaml.list xs) :: d2)
          = (k.data ++ [':']) :: (xs.map (fun x => '-' :: ' ' :: x.data) ++ dumpLines d2)
        from by simp [dumpLines, dumpEntry]]
      rw [show yamlLoadLines (f + 1)
            ((k.data ++ [':']) :: (xs.map (fun x => '-' :: ' ' :: x.data) ++ dumpLines d2))
          = match findSub [':'] (k.data ++ [':']) with
            | none => none
            | some i =>
              let kk : String := ⟨(k.data ++ [':']).take i⟩
              let vv := (k.data ++ [':']).drop (i + 1)
              if vv.isEmpty then
                (yamlLoadLines f (takeDashLines
                    (xs.map (fun x => '-' :: ' ' :: x.data) ++ dumpLines d2)).2).map
                  (fun dd => (kk, Yaml.list (takeDashLines
                    (xs.map (fun x => '-' :: ' ' :: x.data) ++ dumpLines d2)).1) :: dd)
              else if beginsWith [' '] vv then
                (yamlLoadLines f (xs.map (fun x => '-' :: ' ' :: x.data) ++ dumpLines d2)).map
                  (fun dd => (kk, Yaml.str ⟨pyStrip vv⟩) :: dd)
              else none
        from rfl]
      rw [show k.data ++ [':'] = k.data ++ ':' :: ([] : List Char) from by simp]
      rw [findSub_colon k [] hkcolon]
      simp only
      rw [List.take_left]
      have hdrop : (k.data ++ ':' :: ([] : List Char)).drop (k.data.length + 1) = [] := by
        rw [show k.data ++ ':' :: ([] : List Char) = (k.data ++ [':']) ++ [] by simp]
        rw [show k.data.length + 1 = (k.data ++ [':']).length by simp]
        exact List.drop_left _ _
      rw [hdrop]
      rw [if_pos (by simp)]
      rw [takeDash_spec xs (dumpLines d2) (fun x hx => trivial)
        (dumpLines_headNotDash d2 hd2)]
      rw [ih hd2 f hfle]
      rw [mkData]
      rfl
    | null => simp [valOkB] at hv
    | other v => simp [valOkB] at hv

/-! Facts about the serializer's frontmatter dict. -/

theorem wellFormed_parts (a : ParsedAgent) (h : wellFormedB a = true) :
    plainOkB a.name = true ∧ plainOkB a.description = true ∧ plainOkB a.model = true ∧
    a.tools.all plainOkB = true ∧ a.skills.all plainOkB = true ∧
    (∀ n, a.nickname = some n → plainOkB n = true) ∧
    noEdgeWS a.body.data = true ∧ beginsWith DELIM a.body.data = false := by
  unfold wellFormedB at h
  simp only [Bool.and_eq_true, Bool.not_eq_eq_eq_not, Bool.not_true] at h
  obtain ⟨⟨⟨⟨⟨⟨⟨h1, h2⟩, h3⟩, h4⟩, h5⟩, h6⟩, h7⟩, h8⟩ := h
  refine ⟨h1, h2, h3, h4, h5, ?_, h7, h8⟩
  intro n hn
  rw [hn] at h6
  exact h6

theorem fmDict_dictOk (a : ParsedAgent) (h : wellFormedB a = true) :
    dictOkB (fmDict a) = true := by
  obtain ⟨h1, h2, h3, h4, h5, h6, _, _⟩ := wellFormed_parts a h
  unfold dictOkB
  rw [List.all_eq_true]
  intro e he
  unfold fmDict at he
  simp only [List.mem_append, List.mem_cons, List.not_mem_nil, or_false] at he
  rcases he with (((rfl | rfl | rfl) | ht) | hs) | hn
  · simp only [Bool.and_eq_true]
    exact ⟨by decide, h1⟩
  · simp only [Bool.and_eq_true]
    exact ⟨by decide, h2⟩
  · simp only [Bool.and_eq_true]
    exact ⟨by decide, h3⟩
  · by_cases hte : a.tools.isEmpty
    · rw [if_pos hte] at ht
      simp at ht
    · rw [if_neg hte] at ht
      simp only [List.mem_singleton] at ht
      rw [ht]
      simp only [Bool.and_eq_true]
      exact ⟨by decide, h4⟩
  · by_cases hse : a.skills.isEmpty
    · rw [if_pos hse] at hs
      simp at hs
    · rw [if_neg hse] at hs
      simp only [List.mem_singleton] at hs
      rw [hs]
      simp only [Bool.and_eq_true]
      exact ⟨by decide, h5⟩
  · cases hnk : a.nickname with
    | none =>
      rw [hnk] at hn
      simp at hn
    | some n =>
      rw [hnk] at hn
      have hn2 : e ∈ (if n = "" then ([] : List (String × Yaml))
          else [("nickname", Yaml.str n)]) := hn
      by_cases hne : n = ""
      · rw [if_pos hne] at hn2
        simp at hn2
      · rw [if_neg hne] at hn2
        simp only [List.mem_singleton] at hn2
        rw [hn2]
        simp only [Bool.and_eq_true]
        exact ⟨by decide, h6 n hnk⟩

theorem fmDict_shape (a : ParsedAgent) :
    fmDict a = ("name", Yaml.str a.name) :: ("description", Yaml.str a.description) ::
      ("model", Yaml.str a.model) ::
      ((if a.tools.isEmpty then [] else [("tools", Yaml.list a.tools)])
        ++ (if a.skills.isEmpty then [] else [("skills", Yaml.list a.skills)])
        ++ (match a.nickname with
            | some n => if n = "" then [] else [("nickname", Yaml.str n)]
            | none => [])) := by
  unfold fmDict
  simp [List.append_assoc]

theorem lookup_fm_name (a : ParsedAgent) :
    (fmDict a).lookup "name" = some (Yaml.str a.name) := by
  rw [fmDict_shape]
  rw [List.lookup]
  simp

theorem lookup_fm_description (a : ParsedAgent) :
    (fmDict a).lookup "description" = some (Yaml.str a.description) := by
  rw [fmDict_shape]
  rw [List.lookup, List.lookup]
  rw [show (("description" == "name") : Bool) = false from by decide]
  simp

theorem lookup_fm_model (a : ParsedAgent) :
    (fmDict a).lookup "model" = some (Yaml.str a.model) := by
  rw [fmDict_shape]
  rw [List.lookup, List.lookup, List.lookup]
  rw [show (("model" == "name") : Bool) = false from by decide,
    show (("model" == "description") : Bool) = false from by decide]
  simp

theorem lookup_cond_none (key : String) (tl : List (String × Yaml))
    (hkey : ∀ e ∈ tl, (key == e.1) = false) : tl.lookup key = none := by
  induction tl with
  | nil => rfl
  | cons e t ih =>
    rw [List.lookup]
    rw [hkey e (List.mem_cons_self e t)]
    exact ih (fun x hx => hkey x (List.mem_cons_of_mem e hx))

theorem fm_nick_lookup (key : String) (a : ParsedAgent) (hn : (key == "nickname") = false) :
    (match a.nickname with
     | some n => if n = "" then [] else [("nickname", Yaml.str n)]
     | none => ([] : List (String × Yaml))).lookup key = none := by
  apply lookup_cond_none
  intro e he
  cases hnk : a.nickname with
  | none =>
    rw [hnk] at he
    simp at he
  | some n =>
    rw [hnk] at he
    have he2 : e ∈ (if n = "" then ([] : List (String × Yaml))
        else [("nickname", Yaml.str n)]) := he
    by_cases h2 : n = ""
    · rw [if_pos h2] at he2
      simp at he2
    · rw [if_neg h2] at he2
      simp only [List.mem_singleton] at he2
      rw [he2]
      exact hn

theorem fm_rest_lookup (key : String) (a : ParsedAgent)
    (hs : (key == "skills") = false) (hn : (key == "nickname") = false) :
    ((if a.skills.isEmpty then [] else [("skills", Yaml.list a.skills)])
      ++ (match a.nickname with
          | some n => if n = "" then [] else [("nickname", Yaml.str n)]
          | none => [])).lookup key = none := by
  apply lookup_cond_none
  intro e he
  simp only [List.mem_append] at he
  rcases he with he | he
  · by_cases h2 : a.skills.isEmpty
    · rw [if_pos h2] at he
      simp at he
    · rw [if_neg h2] at he
      simp only [List.mem_singleton] at he
      rw [he]
      exact hs
  · have := fm_nick_lookup key a hn
    cases hnk : a.nickname with
    | none =>
      rw [hnk] at he
      simp at he
    | some n =>
      rw [hnk] at he
      have he2 : e ∈ (if n = "" then ([] : List (String × Yaml))
          else [("nickname", Yaml.str n)]) := he
      by_cases h2 : n = ""
      · rw [if_pos h2] at he2
        simp at he2
      · rw [if_neg h2] at he2
        simp only [List.mem_singleton] at he2
        rw [he2]
        exact hn

theorem lookup_fm_tools (a : ParsedAgent) :
    (fmDict a).lookup "tools"
      = if a.tools.isEmpty then none else some (Yaml.list a.tools) := by
  rw [fmDict_shape]
  rw [List.lookup, List.lookup, List.lookup]
  rw [show (("tools" == "name") : Bool) = false from by decide,
    show (("tools" == "description") : Bool) = false from by decide,
    show (("tools" == "model") : Bool) = false from by decide]
  simp only
  by_cases h2 : a.tools.isEmpty
  · rw [if_pos h2, if_pos h2, List.nil_append]
    exact fm_rest_lookup "tools" a (by decide) (by decide)
  · rw [if_neg h2, if_neg h2]
    rw [show (([("tools", Yaml.list a.tools)]
        ++ (if a.skills.isEmpty then [] else [("skills", Yaml.list a.skills)]))
        ++ (match a.nickname with
            | some n => if n = "" then [] else [("nickname", Yaml.str n)]
            | none => []))
      = ("tools", Yaml.list a.tools)
        :: ((if a.skills.isEmpty then [] else [("skills", Yaml.list a.skills)])
          ++ (match a.nickname with
              | some n => if n = "" then [] else [("nickname", Yaml.str n)]
              | none => [])) from by simp]
    rw [List.lookup]
    simp

theorem lookup_fm_skills (a : ParsedAgent) :
    (fmDict a).lookup "skills"
      = if a.skills.isEmpty then none else some (Yaml.list a.skills) := by
  rw [fmDict_shape]
  rw [List.lookup, List.lookup, List.lookup]
  rw [show (("skills" == "name") : Bool) = false from by decide,
    show (("skills" == "description") : Bool) = false from by decide,
    show (("skills" == "model") : Bool) = false from by decide]
  simp only
  have hrest := fm_nick_lookup "skills" a (by decide)
  by_cases h2 : a.tools.isEmpty
  · rw [if_pos h2, List.nil_append]
    by_cases h3 : a.skills.isEmpty
    · rw [if_pos h3, if_pos h3, List.nil_append]
      exact hrest
    · rw [if_neg h3, if_neg h3]
      rw [show ([("skills", Yaml.list a.skills)]
          ++ (match a.nickname with
              | some n => if n = "" then [] else [("nickname", Yaml.str n)]
              | none => []))
        = ("skills", Yaml.list a.skills)
          :: (match a.nickname with
              | some n => if n = "" then [] else [("nickname", Yaml.str n)]
              | none => []) from by simp]
      rw [List.lookup]
      simp
  · rw [if_neg h2]
    rw [show (([("tools", Yaml.list a.tools)]
        ++ (if a.skills.isEmpty then [] else [("skills", Yaml.list a.skills)]))
        ++ (match a.nickname with
            | some n => if n = "" then [] else [("nickname", Yaml.str n)]
            | none => []))
      = ("tools", Yaml.list a.tools)
        :: ((if a.skills.isEmpty then [] else [("skills", Yaml.list a.skills)])
          ++ (match a.nickname with
              | some n => if n = "" then [] else [("nickname", Yaml.str n)]
              | none => [])) from by simp]
    rw [List.lookup]
    rw [show (("skills" == "tools") : Bool) = false from by decide]
    simp only
    by_cases h3 : a.skills.isEmpty
    · rw [if_pos h3, if_pos h3, List.nil_append]
      exact hrest
    · rw [if_neg h3, if_neg h3]
      rw [show ([("skills", Yaml.list a.skills)]
          ++ (match a.nickname with
              | some n => if n = "" then [] else [("nickname", Yaml.str n)]
              | none => []))
        = ("skills", Yaml.list a.skills)
          :: (match a.nickname with
              | some n => if n = "" then [] else [("nickname", Yaml.str n)]
              | none => []) from by simp]
      rw [List.lookup]
      simp

theorem lookup_fm_nickname (a : ParsedAgent) :
    (fmDict a).lookup "nickname"
      = match a.nickname with
        | some n => if n = "" then none else some (Yaml.str n)
        | none => none := by
  rw [fmDict_shape]
  rw [List.lookup, List.lookup, List.lookup]
  rw [show (("nickname" == "name") : Bool) = false from by decide,
    show (("nickname" == "description") : Bool) = false from by decide,
    show (("nickname" == "model") : Bool) = false from by decide]
  simp only
  have hnick : (match a.nickname with
      | some n => if n = "" then ([] : List (String × Yaml)) else [("nickname", Yaml.str n)]
      | none => []).lookup "nickname"
      = match a.nickname with
        | some n => if n = "" then none else some (Yaml.str n)
        | none => none := by
    cases a.nickname with
    | none => rfl
    | some n =>
      by_cases h2 : n = ""
      · simp only [if_pos h2]
        rfl
      · simp only [if_neg h2]
        rw [List.lookup]
        simp
  have happ : ∀ l1 : List (String × Yaml), (∀ e ∈ l1, (("nickname" : String) == e.1) = false) →
      (l1 ++ (match a.nickname with
        | some n => if n = "" then ([] : List (String × Yaml)) else [("nickname", Yaml.str n)]
        | none => [])).lookup "nickname"
      = match a.nickname with
        | some n => if n = "" then none else some (Yaml.str n)
        | none => none := by
    intro l1 hl1
    induction l1 with
    | nil => rw [List.nil_append]; exact hnick
    | cons e t ih =>
      rw [List.cons_append, List.lookup, hl1 e (List.mem_cons_self e t)]
      exact ih (fun x hx => hl1 x (List.mem_cons_of_mem e hx))
  rw [show (((if a.tools.isEmpty then [] else [("tools", Yaml.list a.tools)])
      ++ (if a.skills.isEmpty then [] else [("skills", Yaml.list a.skills)]))
      ++ (match a.nickname with
          | some n => if n = "" then [] else [("nickname", Yaml.str n)]
          | none => []))
    = (((if a.tools.isEmpty then [] else [("tools", Yaml.list a.tools)])
      ++ (if a.skills.isEmpty then [] else [("skills", Yaml.list a.skills)]))
      ++ (match a.nickname with
          | some n => if n = "" then [] else [("nickname", Yaml.str n)]
          | none => [])) from rfl]
  apply happ
  intro e he
  simp only [List.mem_append] at he
  rcases he with he | he
  · by_cases h2 : a.tools.isEmpty
    · rw [if_pos h2] at he
      simp at he
    · rw [if_neg h2] at he
      simp only [List.mem_singleton] at he
      rw [he]
      exact (by decide : (("nickname" : String) == "tools") = false)
  · by_cases h2 : a.skills.isEmpty
    · rw [if_pos h2] at he
      simp at he
    · rw [if_neg h2] at he
      simp only [List.mem_singleton] at he
      rw [he]
      exact (by decide : (("nickname" : String) == "skills") = false)

/-! Stripping and splitting the serialized output. -/

theorem DELIM_eq : DELIM = ['-', '-', '-'] := rfl

theorem split_frontmatter_eq (content : List Char) :
    split_frontmatter content =
      if beginsWith DELIM (pyStrip content) then
        match findSub ('\n' :: DELIM) ((pyStrip content).drop 3) with
        | none => .error .malformedEnd
        | some i =>
          .ok (pyStrip (((pyStrip content).drop 3).take i),
            (fun body0 =>
              if beginsWith DELIM body0 then pyStrip (body0.drop 3)
              else if beginsWith ['\n'] body0 then body0.dropWhile (· == '\n')
              else body0) (pyStrip (((pyStrip content).drop 3).drop (i + 4))))
      else .error .malformedStart := rfl

theorem dumpLines_cons_str (k v : String) (d2 : List (String × Yaml)) :
    dumpLines ((k, Yaml.str v) :: d2) = dumpScalarLine k v :: dumpLines d2 := rfl

theorem dumpLines_fm_shape (a : ParsedAgent) :
    ∃ L2, dumpLines (fmDict a) = dumpScalarLine "name" a.name :: L2 := by
  rw [fmDict_shape]
  exact ⟨_, rfl⟩

theorem dumpLines_fm_ne_nil (a : ParsedAgent) : dumpLines (fmDict a) ≠ [] := by
  obtain ⟨L2, hL⟩ := dumpLines_fm_shape a
  rw [hL]
  simp

/-- The tail of the serialized file after the closing delimiter, once the
outer strip has been applied. -/
def bodyTail (a : ParsedAgent) : List Char :=
  if a.body.data.isEmpty then [] else '\n' :: '\n' :: a.body.data

theorem serialize_strip (a : ParsedAgent) (h : wellFormedB a = true) :
    pyStrip (serialize a)
      = DELIM ++ '\n' :: (joinNL (dumpLines (fmDict a)) ++ (DELIM ++ bodyTail a)) := by
  obtain ⟨_, _, _, _, _, _, h7, _⟩ := wellFormed_parts a h
  unfold serialize yamlDump
  unfold pyStrip
  rw [show DELIM ++ '\n' :: (joinNL (dumpLines (fmDict a))
      ++ (DELIM ++ '\n' :: '\n' :: (a.body.data ++ ['\n'])))
    = '-' :: ('-' :: '-' :: '\n' :: (joinNL (dumpLines (fmDict a))
      ++ (DELIM ++ '\n' :: '\n' :: (a.body.data ++ ['\n'])))) from by rw [DELIM_eq]; rfl]
  unfold dropLeadWS
  rw [dropWhile_cons_of_neg wsChar '-' _ (by decide)]
  by_cases hb : a.body.data.isEmpty
  · have hbe : a.body.data = [] := by
      cases hbd : a.body.data with
      | nil => rfl
      | cons c t => rw [hbd] at hb; simp at hb
    rw [hbe]
    rw [show '-' :: ('-' :: '-' :: '\n' :: (joinNL (dumpLines (fmDict a))
        ++ (DELIM ++ '\n' :: '\n' :: (([] : List Char) ++ ['\n']))))
      = (DELIM ++ '\n' :: (joinNL (dumpLines (fmDict a)) ++ DELIM)) ++ ['\n', '\n', '\n']
      from by rw [DELIM_eq]; simp]
    rw [dropTrailWS_append_ws _ ['\n', '\n', '\n'] (by decide)]
    rw [dropTrailWS_last_not _ '-' ?hlast (by decide)]
    case hlast =>
      rw [List.getLast?_append_of_ne_nil _ (by simp)]
      rw [show ('\n' :: (joinNL (dumpLines (fmDict a)) ++ DELIM))
          = ['\n'] ++ (joinNL (dumpLines (fmDict a)) ++ DELIM) from rfl]
      rw [List.getLast?_append_of_ne_nil _ (by rw [DELIM_eq]; simp)]
      rw [List.getLast?_append_of_ne_nil _ (by rw [DELIM_eq]; simp)]
      rw [DELIM_eq]
      rfl
    unfold bodyTail
    rw [hbe]
    simp
  · have hbne : a.body.data ≠ [] := by
      intro hcon
      rw [hcon] at hb
      simp at hb
    have hlastb : ∃ d, a.body.data.getLast? = some d ∧ wsChar d = false := by
      cases hl : a.body.data.getLast? with
      | none => exact absurd (List.getLast?_eq_none_iff.1 hl) hbne
      | some d =>
        refine ⟨d, rfl, ?_⟩
        unfold noEdgeWS at h7
        rw [hl] at h7
        simp only [Bool.and_eq_true] at h7
        cases hh : a.body.data.head? with
        | none => exact absurd (List.head?_eq_none_iff.1 hh) hbne
        | some c =>
          rw [hh] at h7
          simpa using h7.2
    obtain ⟨d, hd1, hd2⟩ := hlastb
    rw [show '-' :: ('-' :: '-' :: '\n' :: (joinNL (dumpLines (fmDict a))
        ++ (DELIM ++ '\n' :: '\n' :: (a.body.data ++ ['\n']))))
      = (DELIM ++ '\n' :: (joinNL (dumpLines (fmDict a))
          ++ (DELIM ++ '\n' :: '\n' :: a.body.data))) ++ ['\n']
      from by rw [DELIM_eq]; simp]
    rw [dropTrailWS_append_ws _ ['\n'] (by decide)]
    rw [dropTrailWS_last_not _ d ?hlast2 hd2]
    case hlast2 =>
      rw [List.getLast?_append_of_ne_nil _ (by simp)]
      rw [show ('\n' :: (joinNL (dumpLines (fmDict a))
          ++ (DELIM ++ '\n' :: '\n' :: a.body.data)))
          = ['\n'] ++ (joinNL (dumpLines (fmDict a))
            ++ (DELIM ++ '\n' :: '\n' :: a.body.data)) from rfl]
      rw [List.getLast?_append_of_ne_nil _ (by rw [DELIM_eq]; simp)]
      rw [List.getLast?_append_of_ne_nil _ (by rw [DELIM_eq]; simp [hbne])]
      rw [show (('\n' : Char) :: '\n' :: a.body.data)
          = ['\n', '\n'] ++ a.body.data from rfl]
      rw [List.getLast?_append_of_ne_nil _ (by simp [hbne])]
      rw [List.getLast?_append_of_ne_nil _ hbne]
      exact hd1
    unfold bodyTail
    rw [if_neg hb]

theorem noEdge_head_not_nl (l : List Char) (h : noEdgeWS l = true) :
    beginsWith ['\n'] l = false := by
  cases l with
  | nil => rfl
  | cons c t =>
    unfold noEdgeWS at h
    simp only [List.head?_cons, Bool.and_eq_true] at h
    have hc : wsChar c = false := by simpa using h.1
    apply beginsWith_cons_false
    cases hb : (('\n' : Char) == c)
    · rfl
    · rw [beq_iff_eq] at hb
      rw [← hb] at hc
      simp [wsChar] at hc

theorem split_serialize (a : ParsedAgent) (h : wellFormedB a = true) :
    split_frontmatter (serialize a)
      = .ok (interNL (dumpLines (fmDict a)), a.body.data) := by
  have hparts := wellFormed_parts a h
  have hfacts : ∀ l ∈ dumpLines (fmDict a), LineFacts l :=
    dumpLines_facts (fmDict a) (fmDict_dictOk a h)
  have hLne : dumpLines (fmDict a) ≠ [] := dumpLines_fm_ne_nil a
  have hjoin : joinNL (dumpLines (fmDict a))
      = interNL (dumpLines (fmDict a)) ++ ['\n'] := joinNL_eq_interNL _ hLne
  rw [split_frontmatter_eq]
  rw [serialize_strip a h]
  rw [if_pos (beginsWith_append DELIM _)]
  rw [show (3 : Nat) = DELIM.length from rfl, List.drop_left]
  rw [findSub_close (dumpLines (fmDict a)) (bodyTail a) hfacts]
  show Except.ok
      (pyStrip (List.take (joinNL (dumpLines (fmDict a))).length
        ('\n' :: (joinNL (dumpLines (fmDict a)) ++ (DELIM ++ bodyTail a)))),
        (fun body0 =>
          if beginsWith DELIM body0 = true then pyStrip (List.drop DELIM.length body0)
          else if beginsWith ['\n'] body0 = true then List.dropWhile (fun x => x == '\n') body0
          else body0)
          (pyStrip (List.drop ((joinNL (dumpLines (fmDict a))).length + 4)
            ('\n' :: (joinNL (dumpLines (fmDict a)) ++ (DELIM ++ bodyTail a))))))
    = Except.ok (interNL (dumpLines (fmDict a)), a.body.data)
  have htake : ('\n' :: (joinNL (dumpLines (fmDict a)) ++ (DELIM ++ bodyTail a))).take
      (joinNL (dumpLines (fmDict a))).length = '\n' :: interNL (dumpLines (fmDict a)) := by
    rw [hjoin]
    rw [show ((interNL (dumpLines (fmDict a)) ++ ['\n']).length)
        = (interNL (dumpLines (fmDict a))).length + 1 from by simp]
    rw [List.take_succ_cons]
    rw [show (interNL (dumpLines (fmDict a)) ++ ['\n']) ++ (DELIM ++ bodyTail a)
        = interNL (dumpLines (fmDict a)) ++ (['\n'] ++ (DELIM ++ bodyTail a)) from by simp]
    rw [List.take_left]
  rw [htake]
  have hdrop : ('\n' :: (joinNL (dumpLines (fmDict a)) ++ (DELIM ++ bodyTail a))).drop
      ((joinNL (dumpLines (fmDict a))).length + 4) = bodyTail a := by
    rw [show ('\n' :: (joinNL (dumpLines (fmDict a)) ++ (DELIM ++ bodyTail a)))
        = (('\n' :: joinNL (dumpLines (fmDict a))) ++ DELIM) ++ bodyTail a from by simp]
    rw [show (joinNL (dumpLines (fmDict a))).length + 4
        = (('\n' :: joinNL (dumpLines (fmDict a))) ++ DELIM).length from by
      rw [DELIM_eq]; simp]
    exact List.drop_left _ _
  rw [hdrop]
  have hfm : pyStrip ('\n' :: interNL (dumpLines (fmDict a)))
      = interNL (dumpLines (fmDict a)) := by
    rw [pyStrip_ws_cons '\n' _ (by decide)]
    exact pyStrip_noop _ (interNL_noEdge _ hLne hfacts)
  rw [hfm]
  have hbody : pyStrip (bodyTail a) = a.body.data := by
    unfold bodyTail
    by_cases hb : a.body.data.isEmpty
    · rw [if_pos hb]
      have hbe : a.body.data = [] := by
        cases hbd : a.body.data with
        | nil => rfl
        | cons c t => rw [hbd] at hb; simp at hb
      rw [hbe]
      rfl
    · rw [if_neg hb]
      rw [pyStrip_ws_cons '\n' _ (by decide), pyStrip_ws_cons '\n' _ (by decide)]
      exact pyStrip_noop _ hparts.2.2.2.2.2.2.1
  simp only
  rw [hbody]
  rw [hparts.2.2.2.2.2.2.2]
  simp only [Bool.false_eq_true, if_false]
  rw [noEdge_head_not_nl _ hparts.2.2.2.2.2.2.1]
  simp only [Bool.false_eq_true, if_false]

theorem yamlLoad_interNL (a : ParsedAgent) (h : wellFormedB a = true) :
    yamlLoad (interNL (dumpLines (fmDict a))) = some (fmDict a) := by
  have hfacts : ∀ l ∈ dumpLines (fmDict a), LineFacts l :=
    dumpLines_facts (fmDict a) (fmDict_dictOk a h)
  have hLne : dumpLines (fmDict a) ≠ [] := dumpLines_fm_ne_nil a
  have hNne : interNL (dumpLines (fmDict a)) ≠ [] := by
    obtain ⟨l, ls, hL⟩ : ∃ l ls, dumpLines (fmDict a) = l :: ls := by
      cases hL : dumpLines (fmDict a) with
      | nil => exact absurd hL hLne
      | cons l ls => exact ⟨l, ls, rfl⟩
    rw [hL]
    exact interNL_ne_nil l ls (hfacts l (by rw [hL]; exact List.mem_cons_self l ls)).2.2.1
  unfold yamlLoad
  rw [pyStrip_noop _ (interNL_noEdge _ hLne hfacts)]
  rw [if_neg (by simpa using hNne)]
  rw [show splitLines (interNL (dumpLines (fmDict a))) = dumpLines (fmDict a) from
    splitLines_interNL _ hLne (fun l hl => (hfacts l hl).1)]
  exact loadDump (fmDict a) (fmDict_dictOk a h) (dumpLines (fmDict a)).length (le_refl _)

theorem parse_fields_fm (a : ParsedAgent) (fn : String) (h : wellFormedB a = true) :
    parse_fields fn (fmDict a) a.body.data
      = .ok { filename := fn, name := a.name, description := a.description,
              model := a.model, tools := a.tools, skills := a.skills,
              nickname := a.nickname, body := a.body } := by
  have hparts := wellFormed_parts a h
  have hname : get_required (fmDict a) "name" = .ok a.name := by
    unfold get_required
    rw [lookup_fm_name]
    rfl
  have hdesc : get_required (fmDict a) "description" = .ok a.description := by
    unfold get_required
    rw [lookup_fm_description]
    rfl
  have hmodel : get_required (fmDict a) "model" = .ok a.model := by
    unfold get_required
    rw [lookup_fm_model]
    rfl
  have htools : normalize_list (lookupD (fmDict a) "tools") = a.tools := by
    unfold lookupD
    rw [lookup_fm_tools]
    by_cases he : a.tools.isEmpty
    · rw [if_pos he]
      have : a.tools = [] := by
        cases hbd : a.tools with
        | nil => rfl
        | cons c t => rw [hbd] at he; simp at he
      rw [this]
      rfl
    · rw [if_neg he]
      show a.tools.map pyStripS = a.tools
      rw [List.map_congr_left (fun x hx => plainOk_strip x
        ((List.all_eq_true.1 hparts.2.2.2.1) x hx))]
      exact List.map_id a.tools
  have hskills : normalize_list (lookupD (fmDict a) "skills") = a.skills := by
    unfold lookupD
    rw [lookup_fm_skills]
    by_cases he : a.skills.isEmpty
    · rw [if_pos he]
      have : a.skills = [] := by
        cases hbd : a.skills with
        | nil => rfl
        | cons c t => rw [hbd] at he; simp at he
      rw [this]
      rfl
    · rw [if_neg he]
      show a.skills.map pyStripS = a.skills
      rw [List.map_congr_left (fun x hx => plainOk_strip x
        ((List.all_eq_true.1 hparts.2.2.2.2.1) x hx))]
      exact List.map_id a.skills
  have hnick : nicknameOf ((fmDict a).lookup "nickname") = a.nickname := by
    rw [lookup_fm_nickname]
    cases hnk : a.nickname with
    | none => rfl
    | some n =>
      have hpn : plainOkB n = true := hparts.2.2.2.2.2.1 n hnk
      have hne : ¬(n = "") := by
        intro hcon
        exact plainOk_ne_nil n hpn (by rw [hcon])
      simp only [if_neg hne]
      rfl
  have hbody : pyStripS (⟨a.body.data⟩ : String) = a.body := by
    unfold pyStripS
    show (⟨pyStrip a.body.data⟩ : String) = a.body
    rw [pyStrip_noop _ hparts.2.2.2.2.2.2.1]
  unfold parse_fields
  rw [hname, hdesc, hmodel]
  show Except.ok (ParsedAgent.mk fn a.name a.description a.model
      (normalize_list (lookupD (fmDict a) "tools"))
      (normalize_list (lookupD (fmDict a) "skills"))
      (nicknameOf ((fmDict a).lookup "nickname"))
      (pyStripS (⟨a.body.data⟩ : String)))
    = Except.ok (ParsedAgent.mk fn a.name a.description a.model a.tools a.skills
        a.nickname a.body)
  rw [htools, hskills, hnick, hbody]

theorem parse_serialize_eq (a : ParsedAgent) (fn : String) (h : wellFormedB a = true) :
    parse_content (serialize a) fn
      = .ok { filename := fn, name := a.name, description := a.description,
              model := a.model, tools := a.tools, skills := a.skills,
              nickname := a.nickname, body := a.body } := by
  unfold parse_content
  rw [split_serialize a h]
  show (match yamlLoad (interNL (dumpLines (fmDict a))) with
    | none => Except.error ParseErr.invalidYaml
    | some d => parse_fields fn d a.body.data)
    = Except.ok (ParsedAgent.mk fn a.name a.description a.model a.tools a.skills
        a.nickname a.body)
  rw [yamlLoad_interNL a h]
  show parse_fields fn (fmDict a) a.body.data = _
  exact parse_fields_fm a fn h

/-! Supporting lemmas for the editor-state claims. -/

theorem applyOp_disallowed (op : EditOp) (s : EditorState) :
    (applyOp op s).disallowedTools = s.disallowedTools := by
  cases op <;> simp only [applyOp] <;> first
    | rfl
    | (split
       · rfl
       · rfl)

theorem runOps_disallowed (ops : List EditOp) (s : EditorState) :
    (runOps ops s).disallowedTools = s.disallowedTools := by
  induction ops generalizing s with
  | nil => rfl
  | cons op rest ih =>
    show (runOps rest (applyOp op s)).disallowedTools = s.disallowedTools
    rw [ih (applyOp op s), applyOp_disallowed]

/-! Supporting lemmas for the tool-partition claim. -/

theorem partition_filter (l : List String) :
    let p := fun t : String => t.startsWith "mcp__"
    let B := l.filter (fun t => !(p t))
    let M := l.filter p
    (∀ x, (x ∈ B ∨ x ∈ M) ↔ x ∈ l) ∧ (∀ x, x ∈ B → x ∉ M) ∧
      B.Sublist l ∧ M.Sublist l ∧ (B ++ M).Perm l := by
  intro p B M
  refine ⟨?_, ?_, List.filter_sublist l, List.filter_sublist l, ?_⟩
  · intro x
    constructor
    · rintro (hx | hx)
      · exact (List.mem_filter.1 hx).1
      · exact (List.mem_filter.1 hx).1
    · intro hx
      by_cases hp : p x
      · exact Or.inr (List.mem_filter.2 ⟨hx, hp⟩)
      · exact Or.inl (List.mem_filter.2 ⟨hx, by simpa using hp⟩)
  · intro x hB hM
    have h1 := (List.mem_filter.1 hB).2
    have h2 := (List.mem_filter.1 hM).2
    rw [h2] at h1
    simp at h1
  · have hM : M = l.filter (fun x => !(!(p x))) := by
      apply List.filter_congr
      intro x hx
      simp
    rw [hM]
    exact List.filter_append_perm (fun t => !(p t)) l

/-! Supporting lemmas for the MCP wildcard helpers. -/

theorem fromMcpWildcard_eq (w : String) :
    fromMcpWildcard w =
      if beginsWith "mcp__".data w.data && endsWithL "__*".data w.data
          && decide (9 ≤ w.data.length)
          && ((w.data.drop 5).take (w.data.length - 8)).all dotOk then
        some ⟨((w.data.drop 5).take (w.data.length - 8)).map underToDash⟩
      else none := rfl

theorem toMcpWildcard_data (s : String)
    (h1 : ∀ c ∈ s.data, c.isUpper = false) :
    (toMcpWildcard s).data
      = "mcp__".data ++ ((s.data.map dashToUnder) ++ "__*".data) := by
  unfold toMcpWildcard
  rw [String.data_append, String.data_append]
  have : (⟨s.data.map (fun c => dashToUnder (jsToLower c))⟩ : String).data
      = s.data.map dashToUnder := by
    show s.data.map (fun c => dashToUnder (jsToLower c)) = s.data.map dashToUnder
    apply List.map_congr_left
    intro c hc
    unfold jsToLower
    rw [if_neg (by rw [h1 c hc]; simp)]
  rw [this]
  exact List.append_assoc _ _ _

theorem wildcard_roundtrip (s : String) (hne : s ≠ "")
    (h1 : ∀ c ∈ s.data, c.isUpper = false)
    (h2 : ∀ c ∈ s.data, (c == '_') = false)
    (h3 : ∀ c ∈ s.data, dotOk c = true) :
    fromMcpWildcard (toMcpWildcard s) = some s := by
  have hm := toMcpWildcard_data s h1
  have hsne : s.data ≠ [] := by
    intro hcon
    apply hne
    rw [← mkData s, hcon]
  have hmne : s.data.map dashToUnder ≠ [] := by
    intro hcon
    exact hsne (List.map_eq_nil_iff.1 hcon)
  have hdrop : (toMcpWildcard s).data.drop 5 = (s.data.map dashToUnder) ++ "__*".data := by
    rw [hm]
    rw [show (5 : Nat) = ("mcp__".data).length from rfl]
    exact List.drop_left _ _
  have hlen : (toMcpWildcard s).data.length - 8 = (s.data.map dashToUnder).length := by
    rw [hm]
    simp
  have htake : ((toMcpWildcard s).data.drop 5).take ((toMcpWildcard s).data.length - 8)
      = s.data.map dashToUnder := by
    rw [hdrop, hlen]
    exact List.take_left _ _
  have hc1 : beginsWith "mcp__".data (toMcpWildcard s).data = true := by
    rw [hm]
    exact beginsWith_append _ _
  have hc2 : endsWithL "__*".data (toMcpWildcard s).data = true := by
    unfold endsWithL
    rw [hm]
    rw [show "mcp__".data ++ ((s.data.map dashToUnder) ++ "__*".data)
        = ("mcp__".data ++ s.data.map dashToUnder) ++ "__*".data from by
      simp [List.append_assoc]]
    rw [List.reverse_append]
    exact beginsWith_append _ _
  have hc3 : decide (9 ≤ (toMcpWildcard s).data.length) = true := by
    rw [decide_eq_true_eq]
    rw [hm]
    simp only [List.length_append, List.length_map]
    rw [show ("mcp__".data).length = 5 from rfl, show ("__*".data).length = 3 from rfl]
    have h5 : 1 ≤ s.data.length := by
      cases hd : s.data with
      | nil => exact absurd hd hsne
      | cons c t => simp
    omega
  have hc4 : (((toMcpWildcard s).data.drop 5).take ((toMcpWildcard s).data.length - 8)).all
      dotOk = true := by
    rw [htake]
    rw [List.all_eq_true]
    intro c hc
    rw [List.mem_map] at hc
    obtain ⟨c0, hc0, rfl⟩ := hc
    unfold dashToUnder
    by_cases hdash : c0 = '-'
    · rw [if_pos hdash]
      decide
    · rw [if_neg hdash]
      exact h3 c0 hc0
  rw [fromMcpWildcard_eq]
  rw [if_pos (by rw [hc1, hc2, hc3, hc4]; rfl)]
  rw [htake]
  have hback : (s.data.map dashToUnder).map underToDash = s.data := by
    rw [List.map_map]
    have hcongr : ∀ c ∈ s.data, (underToDash ∘ dashToUnder) c = id c := by
      intro c hc
      show underToDash (dashToUnder c) = id c
      by_cases hdash : c = '-'
      · subst hdash
        decide
      · have hus : c ≠ '_' := by
          intro hcon
          have := h2 c hc
          rw [hcon] at this
          simp at this
        simp [dashToUnder, underToDash, hdash, hus]
    rw [List.map_congr_left hcongr, List.map_id]
  rw [hback, mkData]

/-! The claims. -/

def c1Agent : ParsedAgent :=
  { filename := "architect.md", name := "architect", description := "System design",
    model := "opus", tools := ["Read", "Glob"], skills := ["tdd"],
    nickname := some "Ada", body := "You are Ada." }

def c1DashAgent : ParsedAgent :=
  { filename := "a.md", name := "architect", description := "Design", model := "opus",
    tools := [], skills := [], nickname := none, body := "---x" }

/-- C1 (counterexample): the round-trip claim fails as stated. For the valid
record `c1DashAgent`, whose body is the text `---x`, serializing and
re-parsing yields body `x`: the splitter strips a body-initial `---` as a
redundant delimiter, a change that is not surrounding whitespace (stripping
both bodies leaves `x` and `---x` distinct). -/
theorem C1_counterexample :
    parse_content (serialize c1DashAgent) "a.md"
        = .ok { filename := "a.md", name := "architect", description := "Design",
                model := "opus", tools := [], skills := [], nickname := none,
                body := "x" }
      ∧ c1DashAgent.body = "---x"
      ∧ pyStripS "x" ≠ pyStripS "---x" :=
  ⟨rfl, rfl, by decide⟩

/-- C1 (amended): for every well-formed agent record — scalar fields and list
elements plain (quoting-free, trimmed, single-line) YAML scalars, nickname
nonempty when present, body trimmed and not beginning with `---` —
serializing with `AgentParser.serialize` and re-parsing with
`AgentParser.parse_content` reproduces every field (name, description,
model, tools, skills, nickname, body) exactly. -/
theorem C1_roundtrip (a : ParsedAgent) (fn : String) (h : wellFormedB a = true) :
    parse_content (serialize a) fn
      = .ok { filename := fn, name := a.name, description := a.description,
              model := a.model, tools := a.tools, skills := a.skills,
              nickname := a.nickname, body := a.body } :=
  parse_serialize_eq a fn h

/-- Witness for C1: the architect agent of the repository's own end-to-end
scenario is well formed and round-trips unchanged. -/
theorem C1_roundtrip_witness :
    wellFormedB c1Agent = true ∧
      parse_content (serialize c1Agent) "architect.md"
        = .ok { filename := "architect.md", name := "architect",
                description := "System design", model := "opus",
                tools := ["Read", "Glob"], skills := ["tdd"],
                nickname := some "Ada", body := "You are Ada." } :=
  ⟨by decide, C1_roundtrip c1Agent "architect.md" (by decide)⟩

def c2Start : EditorState := { tools := [], disallowedTools := ["Read"], skills := [] }

/-- C2 (counterexample): the editor operations never touch `disallowedTools`,
so assigning the identifier `Read` to `tools` while `Read` is in
`disallowedTools` leaves it there, and the resulting state holds `Read` in
both sets — the claimed mutual-exclusion eviction does not happen. -/
theorem C2_counterexample :
    "Read" ∈ (applyOp (.addBaseTool "Read") c2Start).tools
      ∧ "Read" ∈ (applyOp (.addBaseTool "Read") c2Start).disallowedTools := by
  decide

/-- C2 (amended): none of the editor's assign/unassign operations
(`addBaseTool`, `removeBaseTool`, `addMcpTool`, `removeMcpTool`, `addSkill`,
`removeSkill`) reads or writes `disallowedTools`: after any sequence of
operations the `disallowedTools` set is exactly the initial one. In
particular no eviction takes place, and a state with an identifier in both
sets is reachable whenever it starts that way or the identifier is assigned
while disallowed. -/
theorem C2_disallowed_invariant (ops : List EditOp) (s : EditorState) :
    (runOps ops s).disallowedTools = s.disallowedTools :=
  runOps_disallowed ops s

/-- C3 (counterexample): `_normalize_list` applied to the scalar `*` falls
into the comma-split string branch and returns the ordinary one-element list
containing the identifier `*` — the very same concrete list that the
explicit sequence containing `*` normalizes to. The output type is a plain
list of identifiers; no distinct wildcard sentinel value exists in
`ParsedAgent`. -/
theorem C3_counterexample :
    normalize_list (Yaml.str "*") = ["*"]
      ∧ normalize_list (Yaml.str "*") = normalize_list (Yaml.list ["*"]) := by
  decide

/-- C3 (amended): when the frontmatter field `tools` is the literal scalar
`*`, field normalization produces the concrete singleton list of identifiers
containing `*`, indistinguishable from normalizing the explicit sequence; the
wildcard-sentinel representation exists only in the frontend type
declaration (`AgentConfig.tools: string[] | Star` in `types/index.ts`), not
in the parser. -/
theorem C3_scalar_star (d : List (String × Yaml))
    (h : d.lookup "tools" = some (Yaml.str "*")) :
    normalize_list (lookupD d "tools") = ["*"]
      ∧ normalize_list (lookupD d "tools") = normalize_list (Yaml.list ["*"]) := by
  unfold lookupD
  rw [h]
  exact ⟨by decide, by decide⟩

def c3Dict : List (String × Yaml) := [("tools", Yaml.str "*")]

/-- Witness for C3: a mapping whose tools entry is the scalar star. -/
theorem C3_scalar_star_witness :
    c3Dict.lookup "tools" = some (Yaml.str "*")
      ∧ normalize_list (lookupD c3Dict "tools") = ["*"] :=
  ⟨by decide, (C3_scalar_star c3Dict (by decide)).1⟩

/-- C4 (confirmed, with the two vacuous clauses noted): the frontmatter keys
`serialize` emits are exactly `name`, `description`, `model` unconditionally
and in that order, then `tools` only when non-empty, then `skills` only when
non-empty, then `nickname` only when present and non-empty; a `tools` entry
is always the YAML sequence of the record's tools (the record type has no
wildcard sentinel, so the scalar-star case never arises); and no
`disallowedTools` key is ever emitted (`ParsedAgent` has no such field, so
the omit-when-empty clause holds vacuously). -/
theorem C4_serializer_emission (a : ParsedAgent) :
    ((fmDict a).map Prod.fst
        = ["name", "description", "model"]
          ++ (if a.tools.isEmpty then [] else ["tools"])
          ++ (if a.skills.isEmpty then [] else ["skills"])
          ++ (match a.nickname with
              | some n => if n = "" then [] else ["nickname"]
              | none => []))
    ∧ ((fmDict a).lookup "tools"
        = if a.tools.isEmpty then none else some (Yaml.list a.tools))
    ∧ ("disallowedTools" ∉ (fmDict a).map Prod.fst)
    ∧ ("tools" ∈ (fmDict a).map Prod.fst ↔ a.tools ≠ [])
    ∧ ("skills" ∈ (fmDict a).map Prod.fst ↔ a.skills ≠ [])
    ∧ ("nickname" ∈ (fmDict a).map Prod.fst ↔ ∃ n, a.nickname = some n ∧ n ≠ "") := by
  have hkeys : (fmDict a).map Prod.fst
      = ["name", "description", "model"]
        ++ (if a.tools.isEmpty then [] else ["tools"])
        ++ (if a.skills.isEmpty then [] else ["skills"])
        ++ (match a.nickname with
            | some n => if n = "" then [] else ["nickname"]
            | none => []) := by
    rw [fmDict_shape]
    by_cases ht : a.tools.isEmpty <;> by_cases hs : a.skills.isEmpty <;>
      rcases hnk : a.nickname with _ | n
    · simp [ht, hs, hnk]
    · by_cases hne : n = "" <;> simp [ht, hs, hnk, hne]
    · simp [ht, hs, hnk]
    · by_cases hne : n = "" <;> simp [ht, hs, hnk, hne]
    · simp [ht, hs, hnk]
    · by_cases hne : n = "" <;> simp [ht, hs, hnk, hne]
    · simp [ht, hs, hnk]
    · by_cases hne : n = "" <;> simp [ht, hs, hnk, hne]
  have hmem : ∀ key : String, key ∈ (fmDict a).map Prod.fst ↔
      (key = "name" ∨ key = "description" ∨ key = "model"
        ∨ (¬a.tools.isEmpty = true ∧ key = "tools")
        ∨ (¬a.skills.isEmpty = true ∧ key = "skills")
        ∨ (∃ n, a.nickname = some n ∧ ¬(n = "") ∧ key = "nickname")) := by
    intro key
    rw [hkeys]
    simp only [List.mem_append, List.mem_cons, List.not_mem_nil, or_false]
    constructor
    · intro hp
      rcases hp with hp | hN
      · rcases hp with hp | hS
        · rcases hp with hA | hT
          · rcases hA with h1 | h2 | h3
            · exact Or.inl h1
            · exact Or.inr (Or.inl h2)
            · exact Or.inr (Or.inr (Or.inl h3))
          · by_cases ht : a.tools.isEmpty
            · rw [if_pos ht] at hT
              simp at hT
            · rw [if_neg ht] at hT
              simp only [List.mem_singleton] at hT
              exact Or.inr (Or.inr (Or.inr (Or.inl ⟨ht, hT⟩)))
        · by_cases hs : a.skills.isEmpty
          · rw [if_pos hs] at hS
            simp at hS
          · rw [if_neg hs] at hS
            simp only [List.mem_singleton] at hS
            exact Or.inr (Or.inr (Or.inr (Or.inr (Or.inl ⟨hs, hS⟩))))
      · rcases hnk : a.nickname with _ | n
        · rw [hnk] at hN
          simp at hN
        · rw [hnk] at hN
          have hk2 : key ∈ (if n = "" then ([] : List String) else ["nickname"]) := hN
          by_cases hne : n = ""
          · rw [if_pos hne] at hk2
            simp at hk2
          · rw [if_neg hne] at hk2
            simp only [List.mem_singleton] at hk2
            exact Or.inr (Or.inr (Or.inr (Or.inr (Or.inr ⟨n, rfl, hne, hk2⟩))))
    · rintro (rfl | rfl | rfl | ⟨ht, rfl⟩ | ⟨hs, rfl⟩ | ⟨n, hnk, hne, rfl⟩)
      · exact Or.inl (Or.inl (Or.inl (Or.inl rfl)))
      · exact Or.inl (Or.inl (Or.inl (Or.inr (Or.inl rfl))))
      · exact Or.inl (Or.inl (Or.inl (Or.inr (Or.inr rfl))))
      · refine Or.inl (Or.inl (Or.inr ?_))
        rw [if_neg ht]
        simp
      · refine Or.inl (Or.inr ?_)
        rw [if_neg hs]
        simp
      · refine Or.inr ?_
        rw [hnk]
        show "nickname" ∈ (if n = "" then ([] : List String) else ["nickname"])
        rw [if_neg hne]
        simp
  refine ⟨hkeys, lookup_fm_tools a, ?_, ?_, ?_, ?_⟩
  · intro hmem2
    rw [hmem "disallowedTools"] at hmem2
    rcases hmem2 with h | h | h | ⟨_, h⟩ | ⟨_, h⟩ | ⟨n, _, _, h⟩ <;> exact absurd h (by decide)
  · rw [hmem "tools"]
    constructor
    · rintro (h | h | h | ⟨ht, _⟩ | ⟨_, h⟩ | ⟨n, _, _, h⟩)
      · exact absurd h (by decide)
      · exact absurd h (by decide)
      · exact absurd h (by decide)
      · intro hcon
        rw [hcon] at ht
        simp at ht
      · exact absurd h (by decide)
      · exact absurd h (by decide)
    · intro hne
      refine Or.inr (Or.inr (Or.inr (Or.inl ⟨?_, rfl⟩)))
      intro hcon
      rw [List.isEmpty_iff] at hcon
      exact hne hcon
  · rw [hmem "skills"]
    constructor
    · rintro (h | h | h | ⟨_, h⟩ | ⟨hs, _⟩ | ⟨n, _, _, h⟩)
      · exact absurd h (by decide)
      · exact absurd h (by decide)
      · exact absurd h (by decide)
      · exact absurd h (by decide)
      · intro hcon
        rw [hcon] at hs
        simp at hs
      · exact absurd h (by decide)
    · intro hne
      refine Or.inr (Or.inr (Or.inr (Or.inr (Or.inl ⟨?_, rfl⟩))))
      intro hcon
      rw [List.isEmpty_iff] at hcon
      exact hne hcon
  · rw [hmem "nickname"]
    constructor
    · rintro (h | h | h | ⟨_, h⟩ | ⟨_, h⟩ | ⟨n, hnk, hne, _⟩)
      · exact absurd h (by decide)
      · exact absurd h (by decide)
      · exact absurd h (by decide)
      · exact absurd h (by decide)
      · exact absurd h (by decide)
      · exact ⟨n, hnk, hne⟩
    · rintro ⟨n, hnk, hne⟩
      exact Or.inr (Or.inr (Or.inr (Or.inr (Or.inr ⟨n, hnk, hne, rfl⟩))))

def c5Input : List Char := "---\nname: x\n---foo\nrest".data

/-- C5 (counterexample): on an input whose only candidate closing line is
`---foo` — no line after the opening consists solely of `---` — the splitter
succeeds (cutting at the first newline-then-dashes occurrence and leaving
`foo` at the start of the body) instead of failing with
`MalformedFrontmatter` as claimed. -/
theorem C5_counterexample :
    beginsWith DELIM (pyStrip c5Input) = true
      ∧ ((splitLines c5Input).drop 1).all (fun l => !(l == DELIM)) = true
      ∧ split_frontmatter c5Input = .ok ("name: x".data, "foo\nrest".data) :=
  ⟨rfl, by decide, rfl⟩

theorem split_ok_iff (content : List Char)
    (h : beginsWith DELIM (pyStrip content) = true) :
    (∃ fm b, split_frontmatter content = .ok (fm, b))
      ↔ ∃ x y, (pyStrip content).drop 3 = x ++ ('\n' :: DELIM) ++ y := by
  rw [split_frontmatter_eq, if_pos h]
  cases hf : findSub ('\n' :: DELIM) ((pyStrip content).drop 3) with
  | none =>
    constructor
    · rintro ⟨fm, b, hok⟩
      cases hok
    · rintro ⟨x, y, hxy⟩
      have : (findSub ('\n' :: DELIM) ((pyStrip content).drop 3)).isSome = true :=
        (findSub_isSome_iff _ _).2 ⟨x, y, hxy⟩
      rw [hf] at this
      cases this
  | some i =>
    constructor
    · intro _
      have : (findSub ('\n' :: DELIM) ((pyStrip content).drop 3)).isSome = true := by
        rw [hf]
        rfl
      exact (findSub_isSome_iff _ _).1 this
    · intro _
      exact ⟨_, _, rfl⟩

/-- C5 (amended): for every input whose stripped text begins with `---`, the
splitter succeeds exactly when some later occurrence of a newline followed
immediately by `---` exists, i.e. when some line after the opening begins
with `---` — even a line such as `---foo` or `-----`; when no such
occurrence exists it fails (with `MalformedFrontmatter`). -/
theorem C5_closing_delimiter (content : List Char)
    (h : beginsWith DELIM (pyStrip content) = true) :
    (∃ fm b, split_frontmatter content = .ok (fm, b))
      ↔ ∃ x y, (pyStrip content).drop 3 = x ++ ('\n' :: DELIM) ++ y :=
  split_ok_iff content h

def c5wInput : List Char := "---\nk: v\n---tail\nbody".data

/-- Witness for C5: an input with an opening delimiter and a decomposition
around a newline-then-dashes occurrence, on which the splitter succeeds. -/
theorem C5_closing_delimiter_witness :
    beginsWith DELIM (pyStrip c5wInput) = true
      ∧ ∃ fm b, split_frontmatter c5wInput = .ok (fm, b) :=
  ⟨rfl, (C5_closing_delimiter c5wInput rfl).2
    ⟨"\nk: v".data, "tail\nbody".data, by decide⟩⟩

def c6Input : List Char := "---\na: b\n-----\nz".data

/-- C6 (counterexample): the input below has an opening `---` and no closing
line consisting solely of `---` (its third line is `-----`), yet the
splitter returns a pair instead of failing: the error condition is not
exactly the claimed one. -/
theorem C6_counterexample :
    beginsWith DELIM (pyStrip c6Input) = true
      ∧ ((splitLines c6Input).drop 1).all (fun l => !(l == DELIM)) = true
      ∧ split_frontmatter c6Input = .ok ("a: b".data, "--\nz".data) :=
  ⟨rfl, by decide, rfl⟩

/-- C6 (amended): the splitter fails — always with one of the two
`MalformedFrontmatter` errors — exactly when the stripped input does not
begin with `---` or contains no later newline followed immediately by `---`
(no line after the opening begins with `---`); in all other cases it
returns a `(frontmatter, body)` pair without error. -/
theorem C6_error_characterization (content : List Char) :
    ((∃ fm b, split_frontmatter content = .ok (fm, b))
        ↔ (beginsWith DELIM (pyStrip content) = true
            ∧ ∃ x y, (pyStrip content).drop 3 = x ++ ('\n' :: DELIM) ++ y))
    ∧ ((∃ e, split_frontmatter content = .error e ∧ isMalformedFrontmatter e = true)
        ↔ ¬(beginsWith DELIM (pyStrip content) = true
            ∧ ∃ x y, (pyStrip content).drop 3 = x ++ ('\n' :: DELIM) ++ y)) := by
  by_cases h : beginsWith DELIM (pyStrip content) = true
  · have hok := split_ok_iff content h
    rw [split_frontmatter_eq, if_pos h] at hok ⊢
    cases hf : findSub ('\n' :: DELIM) ((pyStrip content).drop 3) with
    | none =>
      rw [hf] at hok
      constructor
      · rw [hok]
        constructor
        · intro hd
          exact ⟨h, hd⟩
        · rintro ⟨_, hd⟩
          exact hd
      · constructor
        · intro _
          intro hcon
          have : (∃ fm b, (Except.error ParseErr.malformedEnd
              : Except ParseErr (List Char × List Char)) = .ok (fm, b)) := hok.2 hcon.2
          obtain ⟨fm, b, hbad⟩ := this
          cases hbad
        · intro _
          exact ⟨.malformedEnd, rfl, rfl⟩
    | some i =>
      rw [hf] at hok
      constructor
      · constructor
        · intro _
          exact ⟨h, hok.1 ⟨_, _, rfl⟩⟩
        · intro _
          exact ⟨_, _, rfl⟩
      · constructor
        · rintro ⟨e, he, _⟩
          cases he
        · intro hcon
          exact absurd ⟨h, hok.1 ⟨_, _, rfl⟩⟩ hcon
  · rw [split_frontmatter_eq, if_neg h]
    constructor
    · constructor
      · rintro ⟨fm, b, hbad⟩
        cases hbad
      · rintro ⟨hb, _⟩
        exact absurd hb h
    · constructor
      · intro _
        intro hcon
        exact h hcon.1
      · intro _
        exact ⟨.malformedStart, rfl, rfl⟩

/-- C7 (confirmed): once the required fields resolve, a `model` value that is
present (non-null) but not exactly one of the case-sensitive literals
`opus`, `sonnet`, `haiku` makes the agent-file pipeline fail with
`InvalidModel` carrying the offending string: `AgentParser` itself stores
the string, and `_parse_agent_file`'s `ModelType(parsed.model)` conversion
raises, which the project scanner treats as a fatal parse error for that
file. -/
theorem C7_invalid_model (fn : String) (body : List Char)
    (d : List (String × Yaml)) (n dsc : String) (v : Yaml)
    (h1 : get_required d "name" = .ok n)
    (h2 : get_required d "description" = .ok dsc)
    (h3 : d.lookup "model" = some v) (h4 : v ≠ Yaml.null)
    (h5 : pyStr v ≠ "opus") (h6 : pyStr v ≠ "sonnet") (h7 : pyStr v ≠ "haiku") :
    build_agent_config fn d body = .error (.invalidModel (pyStr v)) := by
  have hm : get_required d "model" = .ok (pyStr v) := by
    unfold get_required
    rw [h3]
    cases v with
    | null => exact absurd rfl h4
    | str s => rfl
    | list xs => rfl
    | other s => rfl
  have hpf : parse_fields fn d body
      = .ok (ParsedAgent.mk fn n dsc (pyStr v)
          (normalize_list (lookupD d "tools")) (normalize_list (lookupD d "skills"))
          (nicknameOf (d.lookup "nickname")) (pyStripS (⟨body⟩ : String))) := by
    unfold parse_fields
    rw [h1, h2, hm]
    rfl
  have hnm : ¬(pyStr v ∈ modelLiterals) := by
    simp [modelLiterals, h5, h6, h7]
  have htm : toModelType (pyStr v) = .error (.invalidModel (pyStr v)) := by
    unfold toModelType
    rw [if_neg hnm]
  unfold build_agent_config
  rw [hpf]
  show (match toModelType (pyStr v) with
    | Except.error e => (Except.error e : Except ParseErr ParsedAgent)
    | Except.ok m =>
      Except.ok (ParsedAgent.mk fn n dsc m
        (normalize_list (lookupD d "tools")) (normalize_list (lookupD d "skills"))
        (nicknameOf (d.lookup "nickname")) (pyStripS (⟨body⟩ : String))))
    = Except.error (ParseErr.invalidModel (pyStr v))
  rw [htm]

def c7Dict : List (String × Yaml) :=
  [("name", Yaml.str "a"), ("description", Yaml.str "b"), ("model", Yaml.str "Opus")]

/-- Witness for C7: a mapping with model value `Opus` (wrong case) is
rejected with `InvalidModel "Opus"`. -/
theorem C7_invalid_model_witness :
    c7Dict.lookup "model" = some (Yaml.str "Opus")
      ∧ build_agent_config "x.md" c7Dict [] = .error (.invalidModel "Opus") :=
  ⟨by decide, C7_invalid_model "x.md" [] c7Dict "a" "b" (Yaml.str "Opus")
    rfl rfl (by decide) (by decide) (by decide) (by decide) (by decide)⟩

/-- C8 (code bug): with `tools` set to the wildcard sentinel, computing the
available base tools does not produce the empty set; the code calls
`Array.filter` on the string value, which does not exist (a TypeError, and a
type error against the declared `AgentConfig.tools: string[] | Star`),
modelled here as `none`, while every array-valued state yields a defined
result. -/
theorem C8_wildcard_crash :
    availableBaseTools ToolsField.star = none
      ∧ ∀ l, availableBaseTools (ToolsField.list l) ≠ none := by
  constructor
  · rfl
  · intro l
    simp [availableBaseTools, agentBaseToolsOf]

/-- C9 (confirmed): the editor splits an assigned tools array into
`agentBaseTools` (no `mcp__` name start) and `agentMcpTools` (`mcp__` name
start); the two groups are disjoint, every element of the array lands in
exactly one of them, each preserves the relative order of the array (is a
sublist of it), and together they are a permutation of the whole array. -/
theorem C9_tool_partition (l : List String) :
    ∃ B M, agentBaseToolsOf (ToolsField.list l) = some B
      ∧ agentMcpToolsOf (ToolsField.list l) = some M
      ∧ (∀ x, (x ∈ B ∨ x ∈ M) ↔ x ∈ l)
      ∧ (∀ x, x ∈ B → x ∉ M)
      ∧ B.Sublist l ∧ M.Sublist l ∧ (B ++ M).Perm l := by
  obtain ⟨h1, h2, h3, h4, h5⟩ := partition_filter l
  exact ⟨_, _, rfl, rfl, h1, h2, h3, h4, h5⟩

/-- C10 (counterexample): the empty server name contains no uppercase letter
and no underscore, yet its round-trip through the wildcard helpers fails:
`toMcpWildcard ""` is the eight-character string with nothing between the
markers, which the extraction regex (whose group needs at least one
character) rejects, so `fromMcpWildcard` returns `none`, not the name. -/
theorem C10_counterexample :
    ("".data.all (fun c => !c.isUpper && !(c == '_'))) = true
      ∧ fromMcpWildcard (toMcpWildcard "") = none := by
  decide

/-- C10 (amended): for every nonempty server name with no uppercase letters,
no underscores and no line terminators, the helpers round-trip exactly
(`fromMcpWildcard (toMcpWildcard s) = some s`); and for names outside the
class the round-trip can return a different name — an underscore comes back
as a hyphen, and uppercase comes back lowercased. -/
theorem C10_wildcard_roundtrip :
    (∀ s : String, s ≠ "" →
      (∀ c ∈ s.data, c.isUpper = false) →
      (∀ c ∈ s.data, (c == '_') = false) →
      (∀ c ∈ s.data, dotOk c = true) →
      fromMcpWildcard (toMcpWildcard s) = some s)
    ∧ fromMcpWildcard (toMcpWildcard "my_server") = some "my-server"
    ∧ ("my-server" : String) ≠ "my_server"
    ∧ fromMcpWildcard (toMcpWildcard "My-Server") = some "my-server"
    ∧ ("my-server" : String) ≠ "My-Server" :=
  ⟨fun s h1 h2 h3 h4 => wildcard_roundtrip s h1 h2 h3 h4,
    by decide, by decide, by decide, by decide⟩

/-- Witness for C10: the name my-server is nonempty, lowercase,
underscore-free and line-terminator-free, and round-trips to itself. -/
theorem C10_wildcard_roundtrip_witness :
    (("my-server" : String) ≠ ""
        ∧ (∀ c ∈ ("my-server" : String).data, c.isUpper = false)
        ∧ (∀ c ∈ ("my-server" : String).data, (c == '_') = false)
        ∧ (∀ c ∈ ("my-server" : String).data, dotOk c = true))
      ∧ fromMcpWildcard (toMcpWildcard "my-server") = some "my-server" :=
  ⟨⟨by decide, by decide, by decide, by decide⟩,
    C10_wildcard_roundtrip.1 "my-server" (by decide) (by decide) (by decide) (by decide)⟩
